import Mathlib

/-!
Verification of the RNG repository's core components against its specification.

The C++ sources are shallowly embedded: 64-bit unsigned words become natural
numbers reduced modulo `2 ^ 64` (with the reduction written out explicitly at
every operation that can wrap), the 16-limb `Counter_1024` state becomes a
`List Nat` of sixteen reduced limbs, and the engines become explicit state
records.  The ChaCha block permutation used by `csprng` is an external
primitive (its implementation is not part of the repository core); the
`csprng` model is therefore parameterized by an arbitrary block function.
-/

set_option maxRecDepth 10000

namespace RNG

/-- Word modulus: values of the C++ type `uint64_t` live in `[0, U)`. -/
def U : Nat := 2 ^ 64

/-- 64-bit right rotation (`std::rotr`) on naturals below `U`. -/
def rotr64 (v r : Nat) : Nat := (v >>> r) ||| ((v <<< (64 - r)) % U)

/-- The NASAM mixer from `src/Nasam1024.h`: three multiplications interleaved
with rotation/shift xors, all in 64-bit modular arithmetic. -/
def nasam (v : Nat) : Nat :=
  let v1 := (v * 0x9E6F1D9BB2D6C165) % U
  let v2 := v1 ^^^ rotr64 v1 26
  let v3 := (v2 * 0x9E6F1D9BB2D6C165) % U
  let v4 := v3 ^^^ (rotr64 v3 47 ^^^ rotr64 v3 21)
  let v5 := (v4 * 0x9FB21C651E98DF25) % U
  v5 ^^^ (v5 >>> 28)

/-- Limb `i` of the `Counter_1024` increment, as built by
`Counter_1024::initialize_increment`: limb 0 is the golden-ratio constant and
each later limb is the `nasam` mix of its predecessor. -/
def incLimb : Nat → Nat
  | 0 => 0x9e3779b97f4a7c15
  | i + 1 => nasam (incLimb i)

/-- The fixed 16-limb increment of `Counter_1024`. -/
def increment : List Nat := (List.range 16).map incLimb

/-- Little-endian base-`2^64` value of a limb vector. -/
def limbsToNat : List Nat → Nat
  | [] => 0
  | a :: rest => a + U * limbsToNat rest

/-- All limbs are reduced 64-bit words. -/
def Reduced (x : List Nat) : Prop := ∀ v ∈ x, v < U

instance (x : List Nat) : Decidable (Reduced x) := List.decidableBAll _ x

/-- A well-formed `Counter_1024` state: sixteen reduced limbs. -/
def Limbs16 (x : List Nat) : Prop := x.length = 16 ∧ Reduced x

instance (x : List Nat) : Decidable (Limbs16 x) := instDecidableAnd

/-- The carry-propagation loop inside `Counter_1024::add_carry`: keep
incrementing successive limbs while they wrap to zero. -/
def bump : List Nat → List Nat
  | [] => []
  | a :: rest =>
    if (a + 1) % U ≠ 0 then ((a + 1) % U) :: rest else ((a + 1) % U) :: bump rest

/-- Add `incr` into the first limb of a suffix; on unsigned wrap (detected by
the source as `x[index] < incr` after the addition) propagate the carry. -/
def addAt : List Nat → Nat → List Nat
  | [], _ => []
  | a :: rest, incr =>
    if (a + incr) % U < incr then ((a + incr) % U) :: bump rest
    else ((a + incr) % U) :: rest

/-- `Counter_1024::add_carry`: add `incr` into limb `index` with full carry
propagation upward; indices at or beyond 16 are ignored. -/
def add_carry (x : List Nat) (incr : Nat) (index : Nat) : List Nat :=
  if 16 ≤ index then x
  else x.take index ++ addAt (x.drop index) incr

/-- Apply a sequence of `add_carry` operations given as (value, index) pairs. -/
def applyAddCarries (s : List Nat) (ops : List (Nat × Nat)) : List Nat :=
  ops.foldl (fun st p => add_carry st p.1 p.2) s

/-- `Counter_1024::operator++`: `state += increment`, limb by limb. -/
def increment_once (s : List Nat) : List Nat :=
  (List.range 16).foldl (fun st i => add_carry st (incLimb i) i) s

/-- `Counter_1024::operator+=`: `state += nblocks * increment`, via per-limb
64x64 -> 128 multiplication (`umul128` returns the low word, stores the high
word). -/
def advance (s : List Nat) (nblocks : Nat) : List Nat :=
  if nblocks = 0 then s
  else if nblocks = 1 then increment_once s
  else
    (List.range 16).foldl (fun st i =>
      let product_lo := (incLimb i * nblocks) % U
      let product_hi := (incLimb i * nblocks) / U
      let st1 := add_carry st product_lo i
      if i ≤ 14 then add_carry st1 product_hi (i + 1) else st1) s

/-- `Counter_1024::big_jump`: `state += step * increment`, the product
truncated to 1024 bits (limb pairs with `i + j >= 16` are discarded and zero
step limbs are skipped). -/
def big_jump (s : List Nat) (step : List Nat) : List Nat :=
  (List.range 16).foldl (fun temp i =>
    if step.getD i 0 = 0 then temp
    else
      (List.range 16).foldl (fun t2 j =>
        if i + j < 16 then
          let lo := (incLimb j * step.getD i 0) % U
          let hi := (incLimb j * step.getD i 0) / U
          add_carry (add_carry t2 lo (i + j)) hi (i + j + 1)
        else t2) temp) s

/-- Decompose `n` into `k` little-endian base-`2^64` limbs (truncating modulo
`2^(64*k)`). -/
def natToLimbs : Nat → Nat → List Nat
  | 0, _ => []
  | k + 1, n => n % U :: natToLimbs k (n / U)

/-- 1024-bit addition modulo `2^1024` of two 16-limb vectors. -/
def add1024 (a b : List Nat) : List Nat := natToLimbs 16 (limbsToNat a + limbsToNat b)

/-- Value of the full 1024-bit increment. -/
def incVal : Nat := limbsToNat increment

/-- The `add_carry` calls issued by the general path of `operator+=`, as
(value, index) pairs; the high word of the last limb product lands at index
16, where `add_carry` is a no-op (mirroring the `i <= 14` guard). -/
def advanceOps (n : Nat) : List (Nat × Nat) :=
  (List.range 16).flatMap (fun i =>
    [((incLimb i * n) % U, i), ((incLimb i * n) / U, i + 1)])

/-- The `add_carry` calls issued by `big_jump`, as (value, index) pairs;
pairs whose index is at least 16 are no-ops (mirroring the `i + j < 16`
guard), and zero step limbs contribute zero-valued no-ops. -/
def bigJumpOps (step : List Nat) : List (Nat × Nat) :=
  (List.range 16).flatMap (fun i =>
    (List.range 16).flatMap (fun j =>
      [((incLimb j * step.getD i 0) % U, i + j),
       ((incLimb j * step.getD i 0) / U, i + j + 1)]))

-- ─────────────────────────────────────────────────────────────────────────
-- The Nasam1024 engine (src/Nasam1024.h)
-- ─────────────────────────────────────────────────────────────────────────

/-- State of a `Nasam1024` engine: the 1024-bit counter, the 8-word output
buffer, and the buffer cursor (`buffer_position`, 8 meaning exhausted). -/
structure NasamState where
  counter : List Nat
  buffer : List Nat
  pos : Nat
deriving DecidableEq

/-- `Nasam1024::refill_buffer`: advance the counter once and mix its upper
8 limbs into the buffer. -/
def nasam_refill (s : NasamState) : NasamState :=
  { counter := increment_once s.counter
    buffer := (List.range 8).map (fun i => nasam ((increment_once s.counter).getD (i + 8) 0))
    pos := 0 }

/-- `Nasam1024::operator()`: refill when the buffer is exhausted, then return
the word at the cursor and advance the cursor. -/
def nasam_next (s : NasamState) : Nat × NasamState :=
  let s1 := if s.pos = 8 then nasam_refill s else s
  (s1.buffer.getD s1.pos 0, { s1 with pos := s1.pos + 1 })

/-- `Nasam1024::discard`: skip `n` outputs, consuming the current buffer
first, then whole blocks via `operator+=`, then a final refill. -/
def nasam_discard (s : NasamState) (n : Nat) : NasamState :=
  let remaining := 8 - s.pos
  if n ≤ remaining then { s with pos := s.pos + n }
  else
    let n1 := n - remaining
    let full_blocks := n1 / 8
    let s1 := if 0 < full_blocks then { s with counter := advance s.counter full_blocks } else s
    let s2 := nasam_refill s1
    { s2 with pos := n1 % 8 }

/-- Well-formed engine state: valid counter, 8-word buffer, cursor in [0,8]. -/
def NValid (s : NasamState) : Prop :=
  Limbs16 s.counter ∧ s.buffer.length = 8 ∧ s.pos ≤ 8

instance (s : NasamState) : Decidable (NValid s) := instDecidableAnd

/-- The k-th future output of a `Nasam1024` engine (k = 0 is the value the
next `operator()` call returns): first the unread buffer words, then mixed
upper counter limbs of successive counter advances. -/
def nasam_out (s : NasamState) (k : Nat) : Nat :=
  if k < 8 - s.pos then s.buffer.getD (s.pos + k) 0
  else
    nasam ((increment_once^[(k - (8 - s.pos)) / 8 + 1] s.counter).getD
      ((k - (8 - s.pos)) % 8 + 8) 0)

/-- State transition of one `operator()` call. -/
def nasam_step (s : NasamState) : NasamState := (nasam_next s).2

/-- The value returned by the (n+1)-th of a run of consecutive `operator()`
calls (call `operator()` n+1 times, keep only the last result). -/
def nasam_nthOutput (s : NasamState) (n : Nat) : Nat :=
  (nasam_next (nasam_step^[n] s)).1

-- ─────────────────────────────────────────────────────────────────────────
-- The csprng engine (src/RNG_csprng.h)
-- ─────────────────────────────────────────────────────────────────────────

/-- Errors thrown by `csprng` operations: the distinct overflow detected in
`discard`, and keystream exhaustion detected in `refill_buffer`. -/
inductive CsErr where
  | discardOverflow
  | exhausted
deriving DecidableEq

/-- State of a `csprng` engine: key words, nonce words, 64-bit block counter,
8-word keystream buffer and the word index (8 meaning exhausted). -/
structure CsState where
  key : List Nat
  nonce : List Nat
  ctr : Nat
  buffer : List Nat
  idx : Nat
deriving DecidableEq

/-- Type of the external ChaCha block permutation: from key, nonce and block
counter to the 8 words of one 64-byte keystream block.  The repository treats
this primitive as an external black box, so the model is parameterized by it. -/
def PermFn : Type := List Nat → List Nat → Nat → List Nat

/-- A block function producing 8 words per block. -/
def WfPerm (perm : PermFn) : Prop := ∀ k n c, (perm k n c).length = 8

/-- Well-formed engine state: 8-word buffer, index in [0,8], reduced counter. -/
def CsValid (s : CsState) : Prop :=
  s.buffer.length = 8 ∧ s.idx ≤ 8 ∧ s.ctr < U

instance (s : CsState) : Decidable (CsValid s) := instDecidableAnd

/-- The live-buffer invariant of a csprng engine: whenever the buffer still
holds unread words and the counter has not wrapped, the buffer is exactly the
keystream block the engine generated at the previous counter value.  It is
established by `refill_buffer` and maintained by every engine operation, and
it is what makes the mid-block serialization round trip (which regenerates
the buffer from counter - 1) restore the original stream. -/
def CsInv (perm : PermFn) (s : CsState) : Prop :=
  s.idx < 8 → 1 ≤ s.ctr → s.buffer = perm s.key s.nonce (s.ctr - 1)

/-- `csprng::refill_buffer`: generate the block for the current counter into
the buffer, reset the index, increment the counter; if the counter wraps to
zero the C++ code throws (after those mutations) — the flag records the
pending exception. -/
def cs_refill (perm : PermFn) (s : CsState) : CsState × Option CsErr :=
  ({ s with buffer := perm s.key s.nonce s.ctr, idx := 0, ctr := (s.ctr + 1) % U },
   if (s.ctr + 1) % U = 0 then some CsErr.exhausted else none)

/-- `csprng::operator()`: refill when exhausted (propagating a refill
exception, in which case no value is produced and the index is not
advanced), then return the word at the index and advance it. -/
def cs_next (perm : PermFn) (s : CsState) : Option Nat × CsState :=
  if 8 ≤ s.idx then
    match cs_refill perm s with
    | (s1, some _) => (none, s1)
    | (s1, none) => (some (s1.buffer.getD s1.idx 0), { s1 with idx := s1.idx + 1 })
  else (some (s.buffer.getD s.idx 0), { s with idx := s.idx + 1 })

/-- `csprng::discard`: consume the rest of the buffer, skip whole blocks by
adding to the block counter (with the explicit overflow check), then refill
once if outputs from the next block are needed. -/
def cs_discard (perm : PermFn) (s : CsState) (n : Nat) : CsState × Option CsErr :=
  if n = 0 then (s, none)
  else
    let remaining := 8 - s.idx
    if n < remaining then ({ s with idx := s.idx + n }, none)
    else
      -- the source sets word_index = 8 here, before the overflow check
      let n1 := n - remaining
      let full_blocks := n1 / 8
      let rem := n1 % 8
      if 0 < full_blocks ∧ U - 1 - full_blocks < s.ctr then
        ({ s with idx := 8 }, some CsErr.discardOverflow)
      else
        let c2 := if 0 < full_blocks then s.ctr + full_blocks else s.ctr
        if rem ≠ 0 then
          match cs_refill perm { s with idx := 8, ctr := c2 } with
          | (s3, some e) => (s3, some e)
          | (s3, none) => ({ s3 with idx := rem }, none)
        else ({ s with idx := 8, ctr := c2 }, none)

/-- The k-th future output of a `csprng` engine, assuming no counter wrap
occurs on the way: first the unread buffer words, then words of successive
keystream blocks. -/
def cs_out (perm : PermFn) (s : CsState) (k : Nat) : Nat :=
  if k < 8 - s.idx then s.buffer.getD (s.idx + k) 0
  else (perm s.key s.nonce (s.ctr + (k - (8 - s.idx)) / 8)).getD ((k - (8 - s.idx)) % 8) 0

/-- State transition of one `operator()` call. -/
def cs_step (perm : PermFn) (s : CsState) : CsState := (cs_next perm s).2

/-- The value returned by the (n+1)-th of a run of consecutive `operator()`
calls. -/
def cs_nth (perm : PermFn) (s : CsState) (n : Nat) : Option Nat :=
  (cs_next perm ((cs_step perm)^[n] s)).1

/-- `csprng::operator==`: xor-accumulated key comparison (no early exit),
field comparison of nonce/counter/index, and buffer comparison only when the
buffer still holds unread data. -/
def cs_beq (a b : CsState) : Bool :=
  let key_diff :=
    (List.range 8).foldl (fun acc i => acc ||| (a.key.getD i 0 ^^^ b.key.getD i 0)) 0
  if key_diff ≠ 0 then false
  else if ¬ (a.nonce = b.nonce ∧ a.ctr = b.ctr ∧ a.idx = b.idx) then false
  else if a.idx < 8 then
    decide ((List.range 8).foldl
      (fun acc i => acc ||| (a.buffer.getD i 0 ^^^ b.buffer.getD i 0)) 0 = 0)
  else true

-- ─────────────────────────────────────────────────────────────────────────
-- csprng serialization (operator<< / operator>>)
-- ─────────────────────────────────────────────────────────────────────────

/-- The 8-byte magic header "csprng" (six characters, NUL, zero padding). -/
def magicBytes : List Nat := [0x63, 0x73, 0x70, 0x72, 0x6e, 0x67, 0, 0]

/-- The 65-byte serialization record, at field granularity: magic, version,
key, nonce, block counter, word index, reserved padding. -/
structure SerRecord where
  magic : List Nat
  version : Nat
  key : List Nat
  nonce : List Nat
  ctr : Nat
  idx : Nat
  padding : List Nat
deriving DecidableEq

/-- Errors thrown by `operator>>`. -/
inductive DesErr where
  | badMagic
  | badVersion
  | badIndex
  | zeroCounterMidBlock
  | refillFailed
deriving DecidableEq

/-- `csprng::operator<<`: write magic, version 1, key, nonce, counter, index
and zero padding. -/
def cs_serialize (s : CsState) : SerRecord :=
  { magic := magicBytes, version := 1, key := s.key, nonce := s.nonce
    ctr := s.ctr, idx := s.idx, padding := List.replicate 7 0 }

/-- `csprng::operator>>`: validate magic, version and index range, load key,
nonce and counter, and for a partially consumed buffer reconstruct it by
stepping the counter back, refilling, and restoring counter and index;
restoring a partial buffer at counter zero is rejected. -/
def cs_deserialize (perm : PermFn) (r : SerRecord) (rng : CsState) :
    Except DesErr CsState :=
  if r.magic ≠ magicBytes then .error .badMagic
  else if r.version ≠ 1 then .error .badVersion
  else
    let rng1 : CsState := { rng with key := r.key, nonce := r.nonce, ctr := r.ctr }
    if 8 < r.idx then .error .badIndex
    else
      let rng2 : CsState := { rng1 with idx := r.idx }
      if r.idx < 8 then
        if r.ctr = 0 then .error .zeroCounterMidBlock
        else
          match cs_refill perm { rng2 with ctr := r.ctr - 1 } with
          | (_, some _) => .error .refillFailed
          | (rng3, none) => .ok { rng3 with ctr := r.ctr, idx := r.idx }
      else .ok rng2

-- ─────────────────────────────────────────────────────────────────────────
-- Lemire bounded sampling (csprng::unbiased and random_device::unbiased,
-- textually identical in the two sources)
-- ─────────────────────────────────────────────────────────────────────────

/-- Low 64 bits of the 128-bit product (`umul128` return value). -/
def mulLo (x r : Nat) : Nat := (x * r) % U

/-- High 64 bits of the 128-bit product (`umul128` out-parameter). -/
def mulHi (x r : Nat) : Nat := (x * r) / U

/-- The redraw loop of `unbiased`: keep drawing until the low product word
reaches the threshold, then yield the high product word and the unconsumed
draws; `none` if the supply of draws runs out. -/
def lemireLoop (range t : Nat) : List Nat → Option (Nat × List Nat)
  | [] => none
  | x :: rest =>
    if mulLo x range < t then lemireLoop range t rest
    else some (mulHi x range, rest)

/-- `unbiased(lower_bound, upper_bound)` over an explicit list of raw 64-bit
draws: swap the bounds if needed, return the bound directly for a singleton
interval, pass a raw draw through for the full 64-bit range, and otherwise
run Lemire rejection.  Returns the result and the unconsumed draws. -/
def unbiased (lower_bound upper_bound : Nat) (ds : List Nat) :
    Option (Nat × List Nat) :=
  let lo := min lower_bound upper_bound
  let hi := max lower_bound upper_bound
  if lo = hi then some (lo, ds)
  else
    let range := (hi - lo + 1) % U
    if range = 0 then
      match ds with
      | [] => none
      | x :: rest => some (x, rest)
    else
      match ds with
      | [] => none
      | x :: rest =>
        if mulLo x range < range then
          if mulLo x range < (U - range) % range then
            match lemireLoop range ((U - range) % range) rest with
            | none => none
            | some (h, rest2) => some (lo + h, rest2)
          else some (lo + mulHi x range, rest)
        else some (lo + mulHi x range, rest)

/-- A draw is accepted by the rejection step iff its low product word is at
least the threshold `(U - range) % range`. -/
def lemAccept (range x : Nat) : Bool := decide ((U - range) % range ≤ mulLo x range)

/-- Number of raw 64-bit draws that are accepted and produce the value `v`. -/
def lemHits (lo range v : Nat) : Nat :=
  ((Finset.range U).filter (fun x => lemAccept range x = true ∧ lo + mulHi x range = v)).card

-- ─────────────────────────────────────────────────────────────────────────
-- Arithmetic facts about the limb representation
-- ─────────────────────────────────────────────────────────────────────────

theorem U_pos : 0 < U := by norm_num [U]

theorem one_lt_U : 1 < U := by norm_num [U]

theorem limbsToNat_lt (x : List Nat) (h : Reduced x) : limbsToNat x < U ^ x.length := by
  induction x with
  | nil => simp [limbsToNat]
  | cons a rest ih =>
    have ha : a < U := h a (List.mem_cons_self _ _)
    have hr : limbsToNat rest < U ^ rest.length :=
      ih (fun v hv => h v (List.mem_cons_of_mem _ hv))
    have key : U * limbsToNat rest + U ≤ U * U ^ rest.length := by
      have h1 := Nat.mul_le_mul_left U (Nat.succ_le_of_lt hr)
      rw [Nat.mul_succ] at h1
      exact h1
    simp only [limbsToNat, List.length_cons, pow_succ, mul_comm (U ^ rest.length) U]
    omega

theorem limbsToNat_append (a b : List Nat) :
    limbsToNat (a ++ b) = limbsToNat a + U ^ a.length * limbsToNat b := by
  induction a with
  | nil => simp [limbsToNat]
  | cons x rest ih =>
    show x + U * limbsToNat (rest ++ b)
        = x + U * limbsToNat rest + U ^ (x :: rest).length * limbsToNat b
    rw [ih, List.length_cons, pow_succ]
    ring

theorem bump_length (l : List Nat) : (bump l).length = l.length := by
  induction l with
  | nil => rfl
  | cons a rest ih =>
    simp only [bump]
    split <;> simp [ih]

theorem bump_reduced (l : List Nat) (h : Reduced l) : Reduced (bump l) := by
  induction l with
  | nil => exact h
  | cons a rest ih =>
    have hr : Reduced rest := fun v hv => h v (List.mem_cons_of_mem _ hv)
    simp only [bump]
    split
    · intro v hv
      rcases List.mem_cons.mp hv with h1 | h2
      · subst h1; exact Nat.mod_lt _ U_pos
      · exact hr v h2
    · intro v hv
      rcases List.mem_cons.mp hv with h1 | h2
      · subst h1; exact Nat.mod_lt _ U_pos
      · exact ih hr v h2

theorem bump_toNat (l : List Nat) (h : Reduced l) :
    limbsToNat (bump l) = (limbsToNat l + 1) % U ^ l.length := by
  induction l with
  | nil => simp [bump, limbsToNat]
  | cons a rest ih =>
    have ha : a < U := h a (List.mem_cons_self _ _)
    have hr : Reduced rest := fun v hv => h v (List.mem_cons_of_mem _ hv)
    have hrest : limbsToNat rest < U ^ rest.length := limbsToNat_lt rest hr
    have hmulkey : U * limbsToNat rest + U ≤ U * U ^ rest.length := by
      have h1 := Nat.mul_le_mul_left U (Nat.succ_le_of_lt hrest)
      rw [Nat.mul_succ] at h1
      exact h1
    by_cases hwrap : a + 1 < U
    · have hmod : (a + 1) % U = a + 1 := Nat.mod_eq_of_lt hwrap
      have hne : (a + 1) % U ≠ 0 := by omega
      rw [bump, if_pos hne, hmod]
      show a + 1 + U * limbsToNat rest = (a + U * limbsToNat rest + 1) % U ^ (a :: rest).length
      have hlt : a + U * limbsToNat rest + 1 < U ^ (a :: rest).length := by
        simp only [List.length_cons, pow_succ, mul_comm (U ^ rest.length) U]
        omega
      rw [Nat.mod_eq_of_lt hlt]
      ring
    · have haU : a + 1 = U := by omega
      have hmod : (a + 1) % U = 0 := by rw [haU]; exact Nat.mod_self U
      have hne : ¬ ((a + 1) % U ≠ 0) := by simp [hmod]
      rw [bump, if_neg hne, hmod]
      show 0 + U * limbsToNat (bump rest) = (a + U * limbsToNat rest + 1) % U ^ (a :: rest).length
      rw [ih hr, Nat.zero_add]
      have key : a + U * limbsToNat rest + 1 = U * (limbsToNat rest + 1) := by
        rw [Nat.mul_add, Nat.mul_one]
        omega
      rw [key, List.length_cons, pow_succ, mul_comm (U ^ rest.length) U, Nat.mul_mod_mul_left]

theorem addAt_length (l : List Nat) (incr : Nat) : (addAt l incr).length = l.length := by
  cases l with
  | nil => rfl
  | cons a rest =>
    simp only [addAt]
    split <;> simp [bump_length]

theorem addAt_reduced (l : List Nat) (incr : Nat) (h : Reduced l) :
    Reduced (addAt l incr) := by
  cases l with
  | nil => exact h
  | cons a rest =>
    have hr : Reduced rest := fun v hv => h v (List.mem_cons_of_mem _ hv)
    simp only [addAt]
    split
    · intro v hv
      rcases List.mem_cons.mp hv with h1 | h2
      · subst h1; exact Nat.mod_lt _ U_pos
      · exact bump_reduced rest hr v h2
    · intro v hv
      rcases List.mem_cons.mp hv with h1 | h2
      · subst h1; exact Nat.mod_lt _ U_pos
      · exact hr v h2

theorem addAt_toNat (l : List Nat) (incr : Nat) (h : Reduced l) (hincr : incr < U) :
    limbsToNat (addAt l incr) = (limbsToNat l + incr) % U ^ l.length := by
  cases l with
  | nil =>
    simp [addAt, limbsToNat, Nat.mod_one]
  | cons a rest =>
    have ha : a < U := h a (List.mem_cons_self _ _)
    have hr : Reduced rest := fun v hv => h v (List.mem_cons_of_mem _ hv)
    have hrest : limbsToNat rest < U ^ rest.length := limbsToNat_lt rest hr
    have hmulkey : U * limbsToNat rest + U ≤ U * U ^ rest.length := by
      have h1 := Nat.mul_le_mul_left U (Nat.succ_le_of_lt hrest)
      rw [Nat.mul_succ] at h1
      exact h1
    have hlen : (a :: rest).length = rest.length + 1 := rfl
    by_cases hwrap : a + incr < U
    · have hmod : (a + incr) % U = a + incr := Nat.mod_eq_of_lt hwrap
      have hnc : ¬ ((a + incr) % U < incr) := by omega
      rw [addAt, if_neg hnc, hmod]
      show a + incr + U * limbsToNat rest
          = (a + U * limbsToNat rest + incr) % U ^ (a :: rest).length
      have hlt : a + U * limbsToNat rest + incr < U ^ (a :: rest).length := by
        rw [hlen, pow_succ, mul_comm (U ^ rest.length) U]
        omega
      rw [Nat.mod_eq_of_lt hlt]
      ring
    · -- unsigned wrap: the reduced sum is smaller than incr, carry propagates
      have hs : (a + incr) % U = a + incr - U := by
        have h2 : a + incr - U < U := by omega
        rw [Nat.mod_eq_sub_mod (by omega)]
        exact Nat.mod_eq_of_lt h2
      have hc : (a + incr) % U < incr := by omega
      rw [addAt, if_pos hc, hs]
      show a + incr - U + U * limbsToNat (bump rest)
          = (a + U * limbsToNat rest + incr) % U ^ (a :: rest).length
      rw [bump_toNat rest hr, hlen, pow_succ, mul_comm (U ^ rest.length) U]
      by_cases hfull : limbsToNat rest + 1 < U ^ rest.length
      · rw [Nat.mod_eq_of_lt hfull]
        have heq : a + U * limbsToNat rest + incr
            = a + incr - U + U * (limbsToNat rest + 1) := by
          rw [Nat.mul_add, Nat.mul_one]
          omega
        rw [heq]
        have hlt : a + incr - U + U * (limbsToNat rest + 1) < U * U ^ rest.length := by
          have := Nat.mul_le_mul_left U (Nat.succ_le_of_lt hfull)
          rw [Nat.mul_succ] at this
          omega
        rw [Nat.mod_eq_of_lt hlt]
      · have hmax : limbsToNat rest + 1 = U ^ rest.length := by omega
        rw [hmax, Nat.mod_self, Nat.mul_zero, Nat.add_zero]
        have heq : a + U * limbsToNat rest + incr
            = (a + incr - U) + U * U ^ rest.length := by
          have h4 : U * limbsToNat rest + U = U * U ^ rest.length := by
            have := congrArg (fun t => U * t) hmax
            simpa [Nat.mul_add, Nat.mul_one] using this
          omega
        rw [heq, Nat.add_mod_right, Nat.mod_eq_of_lt (by omega)]

theorem add_carry_length (x : List Nat) (incr i : Nat) :
    (add_carry x incr i).length = x.length := by
  unfold add_carry
  split
  · rfl
  · rw [List.length_append, addAt_length, List.length_take, List.length_drop]
    omega

theorem add_carry_reduced (x : List Nat) (incr i : Nat) (h : Reduced x) :
    Reduced (add_carry x incr i) := by
  unfold add_carry
  split
  · exact h
  · intro v hv
    rcases List.mem_append.mp hv with h1 | h2
    · exact h v (List.take_subset _ _ h1)
    · exact addAt_reduced _ _ (fun w hw => h w (List.drop_subset _ _ hw)) v h2

theorem mod_chunk (T m i k : Nat) (hT : T < U ^ i) :
    (T + U ^ i * m) % U ^ (i + k) = T + U ^ i * (m % U ^ k) := by
  have hm := Nat.div_add_mod m (U ^ k)
  have h5 : U ^ i * (m % U ^ k) + U ^ (i + k) * (m / U ^ k) = U ^ i * m := by
    rw [pow_add, mul_assoc, ← Nat.mul_add,
        Nat.add_comm (m % U ^ k) (U ^ k * (m / U ^ k)), hm]
  have key : T + U ^ i * m
      = (T + U ^ i * (m % U ^ k)) + U ^ (i + k) * (m / U ^ k) := by
    omega
  rw [key, Nat.add_mul_mod_self_left]
  apply Nat.mod_eq_of_lt
  have hmod : m % U ^ k < U ^ k := Nat.mod_lt _ (pow_pos U_pos k)
  have h6 := Nat.mul_le_mul_left (U ^ i) (Nat.succ_le_of_lt hmod)
  rw [Nat.mul_succ] at h6
  rw [pow_add]
  omega

theorem add_carry_toNat (x : List Nat) (incr i : Nat) (hx : Limbs16 x) (hincr : incr < U) :
    limbsToNat (add_carry x incr i) = (limbsToNat x + incr * U ^ i) % U ^ 16 := by
  obtain ⟨hlen, hred⟩ := hx
  have hself : limbsToNat x < U ^ 16 := by
    have := limbsToNat_lt x hred
    rwa [hlen] at this
  unfold add_carry
  split
  · -- index at or beyond 16: a no-op whose contribution vanishes modulo U^16
    next h16 =>
    have hsplit : incr * U ^ i = incr * U ^ (i - 16) * U ^ 16 := by
      rw [mul_assoc, ← pow_add]
      congr 2
      omega
    rw [hsplit, Nat.add_mul_mod_self_right, Nat.mod_eq_of_lt hself]
  · next h16 =>
    have hi : i < 16 := by omega
    have htk : (x.take i).length = i := by
      rw [List.length_take]
      omega
    have hdk : (x.drop i).length = 16 - i := by
      rw [List.length_drop, hlen]
    have hTred : Reduced (x.take i) := fun v hv => hred v (List.take_subset _ _ hv)
    have hDred : Reduced (x.drop i) := fun v hv => hred v (List.drop_subset _ _ hv)
    have hT : limbsToNat (x.take i) < U ^ i := by
      have := limbsToNat_lt _ hTred
      rwa [htk] at this
    have hx_decomp : limbsToNat x
        = limbsToNat (x.take i) + U ^ i * limbsToNat (x.drop i) := by
      calc limbsToNat x = limbsToNat (x.take i ++ x.drop i) := by
            rw [List.take_append_drop]
        _ = limbsToNat (x.take i) + U ^ i * limbsToNat (x.drop i) := by
            rw [limbsToNat_append, htk]
    rw [limbsToNat_append, addAt_toNat _ _ hDred hincr, htk, hdk]
    have hgoal : (limbsToNat (x.take i)
          + U ^ i * (limbsToNat (x.drop i) + incr)) % U ^ (i + (16 - i))
        = limbsToNat (x.take i)
          + U ^ i * ((limbsToNat (x.drop i) + incr) % U ^ (16 - i)) :=
      mod_chunk _ _ _ _ hT
    have hexp : i + (16 - i) = 16 := by omega
    rw [hexp] at hgoal
    rw [← hgoal, hx_decomp]
    congr 1
    ring

theorem add_carry_limbs16 (x : List Nat) (incr i : Nat) (h : Limbs16 x) :
    Limbs16 (add_carry x incr i) :=
  ⟨by rw [add_carry_length]; exact h.1, add_carry_reduced _ _ _ h.2⟩

theorem add_carry_ge16 (x : List Nat) (v i : Nat) (h : 16 ≤ i) : add_carry x v i = x := by
  rw [add_carry, if_pos h]

theorem addAt_zero (l : List Nat) (h : Reduced l) : addAt l 0 = l := by
  cases l with
  | nil => rfl
  | cons a rest =>
    rw [addAt, if_neg (by omega)]
    rw [Nat.add_zero, Nat.mod_eq_of_lt (h a (List.mem_cons_self _ _))]

theorem add_carry_zero (x : List Nat) (i : Nat) (h : Reduced x) : add_carry x 0 i = x := by
  unfold add_carry
  split
  · rfl
  · rw [addAt_zero _ (fun w hw => h w (List.drop_subset _ _ hw)), List.take_append_drop]

-- ─────────────────────────────────────────────────────────────────────────
-- Sequences of add_carry operations
-- ─────────────────────────────────────────────────────────────────────────

theorem applyAddCarries_cons (s : List Nat) (p : Nat × Nat) (ops : List (Nat × Nat)) :
    applyAddCarries s (p :: ops) = applyAddCarries (add_carry s p.1 p.2) ops := rfl

theorem applyAddCarries_append (s : List Nat) (a b : List (Nat × Nat)) :
    applyAddCarries s (a ++ b) = applyAddCarries (applyAddCarries s a) b := by
  unfold applyAddCarries
  rw [List.foldl_append]

theorem applyAddCarries_limbs16 (ops : List (Nat × Nat)) (s : List Nat) (hs : Limbs16 s) :
    Limbs16 (applyAddCarries s ops) := by
  induction ops generalizing s with
  | nil => exact hs
  | cons p rest ih => exact ih _ (add_carry_limbs16 _ _ _ hs)

theorem applyAddCarries_toNat (ops : List (Nat × Nat)) (s : List Nat) (hs : Limbs16 s)
    (hops : ∀ p ∈ ops, p.1 < U) :
    limbsToNat (applyAddCarries s ops)
      = (limbsToNat s + (ops.map (fun p => p.1 * U ^ p.2)).sum) % U ^ 16 := by
  induction ops generalizing s with
  | nil =>
    have : limbsToNat s < U ^ 16 := by
      have := limbsToNat_lt s hs.2
      rwa [hs.1] at this
    simp only [applyAddCarries, List.foldl_nil, List.map_nil, List.sum_nil, Nat.add_zero]
    exact (Nat.mod_eq_of_lt this).symm
  | cons p rest ih =>
    rw [applyAddCarries_cons,
        ih (add_carry s p.1 p.2) (add_carry_limbs16 _ _ _ hs)
          (fun q hq => hops q (List.mem_cons_of_mem _ hq)),
        add_carry_toNat s p.1 p.2 hs (hops p (List.mem_cons_self _ _)),
        List.map_cons, List.sum_cons, Nat.mod_add_mod]
    congr 1
    ring

theorem applyAddCarries_all_zero (ops : List (Nat × Nat)) (s : List Nat)
    (hs : Limbs16 s) (h0 : ∀ p ∈ ops, p.1 = 0) :
    applyAddCarries s ops = s := by
  induction ops generalizing s with
  | nil => rfl
  | cons p rest ih =>
    rw [applyAddCarries_cons, h0 p (List.mem_cons_self _ _), add_carry_zero _ _ hs.2]
    exact ih s hs (fun q hq => h0 q (List.mem_cons_of_mem _ hq))

theorem applyAddCarries_flatMap {α : Type} (l : List α) (g : α → List (Nat × Nat))
    (s : List Nat) :
    applyAddCarries s (l.flatMap g)
      = l.foldl (fun st a => applyAddCarries st (g a)) s := by
  induction l generalizing s with
  | nil => rfl
  | cons a rest ih =>
    rw [List.flatMap_cons, applyAddCarries_append, List.foldl_cons, ih]

theorem foldl_preserves {α β : Type} (P : α → Prop) (f : α → β → α) (l : List β) (s : α)
    (hP : P s) (hstep : ∀ a b, P a → P (f a b)) : P (l.foldl f s) := by
  induction l generalizing s with
  | nil => exact hP
  | cons b rest ih => exact ih _ (hstep s b hP)

theorem foldl_congr_inv {α β : Type} (P : α → Prop) (f g : α → β → α) (l : List β) (s : α)
    (hP : P s) (hfg : ∀ a b, P a → f a b = g a b) (hstep : ∀ a b, P a → P (f a b)) :
    l.foldl f s = l.foldl g s := by
  induction l generalizing s with
  | nil => rfl
  | cons b rest ih =>
    rw [List.foldl_cons, List.foldl_cons, ← hfg s b hP]
    exact ih (f s b) (hstep s b hP)

theorem sum_map_flatMap {α : Type} (l : List α) (g : α → List (Nat × Nat))
    (w : Nat × Nat → Nat) :
    ((l.flatMap g).map w).sum = (l.map (fun a => ((g a).map w).sum)).sum := by
  induction l with
  | nil => rfl
  | cons a rest ih =>
    rw [List.flatMap_cons, List.map_append, List.sum_append, List.map_cons, List.sum_cons, ih]

-- ─────────────────────────────────────────────────────────────────────────
-- Value characterization of the Counter_1024 operations
-- ─────────────────────────────────────────────────────────────────────────

theorem incLimb_lt : ∀ i < 16, incLimb i < U := by decide

theorem increment_length : increment.length = 16 := by decide

theorem increment_reduced : Reduced increment := by decide

theorem limbsToNat_map_range (f : Nat → Nat) (n : Nat) :
    limbsToNat ((List.range n).map f)
      = ((List.range n).map (fun i => f i * U ^ i)).sum := by
  induction n with
  | zero => rfl
  | succ n ih =>
    rw [List.range_succ, List.map_append, List.map_append, limbsToNat_append,
        List.sum_append, ih, List.length_map, List.length_range]
    simp only [List.map_cons, List.map_nil, List.sum_cons, List.sum_nil, limbsToNat]
    ring

theorem increment_once_eq_apply (s : List Nat) :
    increment_once s
      = applyAddCarries s ((List.range 16).map (fun i => (incLimb i, i))) := by
  unfold increment_once applyAddCarries
  rw [List.foldl_map]

theorem increment_once_limbs16 (s : List Nat) (hs : Limbs16 s) :
    Limbs16 (increment_once s) := by
  rw [increment_once_eq_apply]
  exact applyAddCarries_limbs16 _ _ hs

theorem increment_once_toNat (s : List Nat) (hs : Limbs16 s) :
    limbsToNat (increment_once s) = (limbsToNat s + incVal) % U ^ 16 := by
  rw [increment_once_eq_apply,
      applyAddCarries_toNat _ _ hs (by
        intro p hp
        rcases List.mem_map.mp hp with ⟨i, hi, rfl⟩
        exact incLimb_lt i (List.mem_range.mp hi))]
  have hsum : ((((List.range 16).map (fun i => (incLimb i, i))).map
      (fun p => p.1 * U ^ p.2)).sum) = incVal := by
    rw [List.map_map]
    have h1 : incVal = limbsToNat ((List.range 16).map incLimb) := rfl
    rw [h1, limbsToNat_map_range]
    rfl
  rw [hsum]

theorem advance_eq_apply (s : List Nat) (n : Nat) (h2 : 2 ≤ n) :
    advance s n = applyAddCarries s (advanceOps n) := by
  rw [advance, if_neg (by omega), if_neg (by omega), advanceOps, applyAddCarries_flatMap]
  apply List.foldl_ext
  intro st i hi
  show (if i ≤ 14
      then add_carry (add_carry st ((incLimb i * n) % U) i) ((incLimb i * n) / U) (i + 1)
      else add_carry st ((incLimb i * n) % U) i)
    = applyAddCarries st [((incLimb i * n) % U, i), ((incLimb i * n) / U, i + 1)]
  by_cases h14 : i ≤ 14
  · rw [if_pos h14]
    rfl
  · have h16 : 16 ≤ i + 1 := by
      have := List.mem_range.mp hi
      omega
    rw [if_neg h14, applyAddCarries_cons, applyAddCarries_cons]
    show add_carry st ((incLimb i * n) % U) i
        = add_carry (add_carry st ((incLimb i * n) % U) i) ((incLimb i * n) / U) (i + 1)
    rw [add_carry_ge16 _ _ _ h16]

theorem advanceOps_sum (n : Nat) :
    ((advanceOps n).map (fun p => p.1 * U ^ p.2)).sum = n * incVal := by
  rw [advanceOps, sum_map_flatMap]
  have point : ∀ i, ((([((incLimb i * n) % U, i), ((incLimb i * n) / U, i + 1)]).map
      (fun p => p.1 * U ^ p.2)).sum) = n * (incLimb i * U ^ i) := by
    intro i
    have hm := Nat.div_add_mod (incLimb i * n) U
    simp only [List.map_cons, List.map_nil, List.sum_cons, List.sum_nil, Nat.add_zero]
    calc ((incLimb i * n) % U) * U ^ i + ((incLimb i * n) / U) * U ^ (i + 1)
        = ((incLimb i * n) % U + U * ((incLimb i * n) / U)) * U ^ i := by
          rw [pow_succ]
          ring
      _ = (incLimb i * n) * U ^ i := by rw [Nat.add_comm, hm]
      _ = n * (incLimb i * U ^ i) := by ring
  have hmap : (List.range 16).map (fun i =>
        (([((incLimb i * n) % U, i), ((incLimb i * n) / U, i + 1)]).map
          (fun p => p.1 * U ^ p.2)).sum)
      = (List.range 16).map (fun i => n * (incLimb i * U ^ i)) :=
    List.map_congr_left (fun i _ => point i)
  rw [hmap, List.sum_map_mul_left]
  congr 1

theorem advanceOps_bounded (n : Nat) (hn : n < U) :
    ∀ p ∈ advanceOps n, p.1 < U := by
  intro p hp
  rcases List.mem_flatMap.mp hp with ⟨i, hi, hmem⟩
  have hlim : incLimb i < U := incLimb_lt i (List.mem_range.mp hi)
  rcases List.mem_cons.mp hmem with h1 | h2
  · subst h1
    exact Nat.mod_lt _ U_pos
  · rcases List.mem_cons.mp h2 with h3 | h4
    · subst h3
      rw [Nat.div_lt_iff_lt_mul U_pos]
      exact Nat.mul_lt_mul'' hlim hn
    · simp at h4

theorem advance_limbs16 (s : List Nat) (n : Nat) (hs : Limbs16 s) :
    Limbs16 (advance s n) := by
  by_cases h0 : n = 0
  · rw [advance, if_pos h0]
    exact hs
  by_cases h1 : n = 1
  · rw [advance, if_neg h0, if_pos h1]
    exact increment_once_limbs16 s hs
  · rw [advance_eq_apply s n (by omega)]
    exact applyAddCarries_limbs16 _ _ hs

theorem advance_toNat (s : List Nat) (n : Nat) (hs : Limbs16 s) (hn : n < U) :
    limbsToNat (advance s n) = (limbsToNat s + n * incVal) % U ^ 16 := by
  have hself : limbsToNat s < U ^ 16 := by
    have := limbsToNat_lt s hs.2
    rwa [hs.1] at this
  by_cases h0 : n = 0
  · subst h0
    rw [advance, if_pos rfl, Nat.zero_mul, Nat.add_zero]
    exact (Nat.mod_eq_of_lt hself).symm
  by_cases h1 : n = 1
  · subst h1
    rw [advance, if_neg h0, if_pos rfl, increment_once_toNat s hs, Nat.one_mul]
  · rw [advance_eq_apply s n (by omega),
        applyAddCarries_toNat _ _ hs (advanceOps_bounded n hn), advanceOps_sum]

theorem iterate_inc_limbs16 (k : Nat) (s : List Nat) (hs : Limbs16 s) :
    Limbs16 (increment_once^[k] s) := by
  induction k with
  | zero => exact hs
  | succ k ih =>
    rw [Function.iterate_succ_apply']
    exact increment_once_limbs16 _ ih

theorem iterate_inc_toNat (k : Nat) (s : List Nat) (hs : Limbs16 s) :
    limbsToNat (increment_once^[k] s) = (limbsToNat s + k * incVal) % U ^ 16 := by
  have hself : limbsToNat s < U ^ 16 := by
    have := limbsToNat_lt s hs.2
    rwa [hs.1] at this
  induction k with
  | zero =>
    simp only [Function.iterate_zero, id_eq, Nat.zero_mul, Nat.add_zero]
    exact (Nat.mod_eq_of_lt hself).symm
  | succ k ih =>
    rw [Function.iterate_succ_apply', increment_once_toNat _ (iterate_inc_limbs16 k s hs), ih,
        Nat.mod_add_mod]
    congr 1
    ring

theorem limbsToNat_inj (x y : List Nat) (hlen : x.length = y.length)
    (hx : Reduced x) (hy : Reduced y) (h : limbsToNat x = limbsToNat y) : x = y := by
  induction x generalizing y with
  | nil =>
    cases y with
    | nil => rfl
    | cons b ry => simp at hlen
  | cons a rx ih =>
    cases y with
    | nil => simp at hlen
    | cons b ry =>
      have ha : a < U := hx a (List.mem_cons_self _ _)
      have hb : b < U := hy b (List.mem_cons_self _ _)
      have hhead : a = b := by
        have hmod := congrArg (fun t => t % U) h
        simp only [limbsToNat] at hmod
        rwa [Nat.add_mul_mod_self_left, Nat.add_mul_mod_self_left,
             Nat.mod_eq_of_lt ha, Nat.mod_eq_of_lt hb] at hmod
      have htail : limbsToNat rx = limbsToNat ry := by
        simp only [limbsToNat, hhead] at h
        have h2 := Nat.add_left_cancel h
        exact Nat.eq_of_mul_eq_mul_left U_pos h2
      rw [hhead, ih ry (by simpa using hlen)
        (fun v hv => hx v (List.mem_cons_of_mem _ hv))
        (fun v hv => hy v (List.mem_cons_of_mem _ hv)) htail]

theorem advance_eq_iterate (s : List Nat) (n : Nat) (hs : Limbs16 s) (hn : n < U) :
    advance s n = increment_once^[n] s := by
  have h1 := advance_limbs16 s n hs
  have h2 := iterate_inc_limbs16 n s hs
  apply limbsToNat_inj _ _ (by rw [h1.1, h2.1]) h1.2 h2.2
  rw [advance_toNat s n hs hn, iterate_inc_toNat n s hs]

-- ─────────────────────────────────────────────────────────────────────────
-- natToLimbs and 1024-bit addition
-- ─────────────────────────────────────────────────────────────────────────

theorem natToLimbs_length (k n : Nat) : (natToLimbs k n).length = k := by
  induction k generalizing n with
  | zero => rfl
  | succ k ih => simp [natToLimbs, ih]

theorem natToLimbs_reduced (k n : Nat) : Reduced (natToLimbs k n) := by
  induction k generalizing n with
  | zero =>
    intro v hv
    simp [natToLimbs] at hv
  | succ k ih =>
    intro v hv
    rcases List.mem_cons.mp hv with h1 | h2
    · subst h1
      exact Nat.mod_lt _ U_pos
    · exact ih (n / U) v h2

theorem natToLimbs_toNat (k n : Nat) : limbsToNat (natToLimbs k n) = n % U ^ k := by
  induction k generalizing n with
  | zero => simp [natToLimbs, limbsToNat, Nat.mod_one]
  | succ k ih =>
    show n % U + U * limbsToNat (natToLimbs k (n / U)) = n % U ^ (k + 1)
    rw [ih]
    have hT : n % U < U ^ 1 := by
      rw [pow_one]
      exact Nat.mod_lt _ U_pos
    have hchunk := mod_chunk (n % U) (n / U) 1 k hT
    rw [pow_one] at hchunk
    rw [← hchunk]
    have hcomm : n % U + U * (n / U) = n := by
      rw [Nat.add_comm]
      exact Nat.div_add_mod n U
    rw [hcomm, Nat.add_comm 1 k]

theorem add1024_limbs16 (a b : List Nat) : Limbs16 (add1024 a b) :=
  ⟨natToLimbs_length _ _, natToLimbs_reduced _ _⟩

theorem add1024_toNat (a b : List Nat) :
    limbsToNat (add1024 a b) = (limbsToNat a + limbsToNat b) % U ^ 16 :=
  natToLimbs_toNat _ _

-- ─────────────────────────────────────────────────────────────────────────
-- big_jump characterization
-- ─────────────────────────────────────────────────────────────────────────

theorem getD_lt_U (x : List Nat) (hx : Reduced x) (i : Nat) : x.getD i 0 < U := by
  by_cases h : i < x.length
  · rw [List.getD_eq_getElem x 0 h]
    exact hx _ (List.getElem_mem h)
  · rw [List.getD_eq_default x 0 (by omega)]
    exact U_pos

theorem big_jump_eq_apply (s step : List Nat) (hs : Limbs16 s) :
    big_jump s step = applyAddCarries s (bigJumpOps step) := by
  rw [big_jump, bigJumpOps, applyAddCarries_flatMap]
  apply foldl_congr_inv Limbs16 _ _ _ _ hs
  · intro temp i htemp
    show (if step.getD i 0 = 0 then temp else _) = _
    by_cases hz : step.getD i 0 = 0
    · rw [if_pos hz]
      symm
      apply applyAddCarries_all_zero _ _ htemp
      intro p hp
      rcases List.mem_flatMap.mp hp with ⟨j, _, hmem⟩
      rcases List.mem_cons.mp hmem with h1 | h2
      · subst h1
        rw [hz, Nat.mul_zero, Nat.zero_mod]
      · rcases List.mem_cons.mp h2 with h3 | h4
        · subst h3
          rw [hz, Nat.mul_zero, Nat.zero_div]
        · simp at h4
    · rw [if_neg hz, applyAddCarries_flatMap]
      apply List.foldl_ext
      intro t2 j _
      show (if i + j < 16 then add_carry (add_carry t2 ((incLimb j * step.getD i 0) % U) (i + j))
            ((incLimb j * step.getD i 0) / U) (i + j + 1) else t2)
          = applyAddCarries t2 [((incLimb j * step.getD i 0) % U, i + j),
              ((incLimb j * step.getD i 0) / U, i + j + 1)]
      by_cases hlt : i + j < 16
      · rw [if_pos hlt]
        rfl
      · rw [if_neg hlt, applyAddCarries_cons, applyAddCarries_cons]
        show t2 = applyAddCarries (add_carry (add_carry t2 _ (i + j)) _ (i + j + 1)) []
        rw [add_carry_ge16 _ _ _ (by omega), add_carry_ge16 _ _ _ (by omega)]
        rfl
  · intro temp i htemp
    show Limbs16 (if step.getD i 0 = 0 then temp else _)
    by_cases hz : step.getD i 0 = 0
    · rw [if_pos hz]
      exact htemp
    · rw [if_neg hz]
      apply foldl_preserves Limbs16 _ _ _ htemp
      intro a j hP
      show Limbs16 (if i + j < 16 then _ else a)
      by_cases hlt : i + j < 16
      · rw [if_pos hlt]
        exact add_carry_limbs16 _ _ _ (add_carry_limbs16 _ _ _ hP)
      · rw [if_neg hlt]
        exact hP

theorem sum_getD (x : List Nat) :
    ((List.range x.length).map (fun i => x.getD i 0 * U ^ i)).sum = limbsToNat x := by
  induction x with
  | nil => rfl
  | cons a rest ih =>
    rw [List.length_cons, List.range_succ_eq_map, List.map_cons, List.sum_cons, List.map_map]
    have hcomp : ((fun i => (a :: rest).getD i 0 * U ^ i) ∘ Nat.succ)
        = fun i => (rest.getD i 0 * U ^ i) * U := by
      funext i
      simp only [Function.comp_apply, List.getD_cons_succ]
      rw [pow_succ]
      ring
    rw [hcomp, List.sum_map_mul_right, ih]
    simp only [List.getD_cons_zero, pow_zero, limbsToNat]
    ring

theorem bigJumpOps_sum (step : List Nat) (hstep : step.length = 16) :
    ((bigJumpOps step).map (fun p => p.1 * U ^ p.2)).sum = limbsToNat step * incVal := by
  rw [bigJumpOps, sum_map_flatMap]
  have inner : ∀ i, (((List.range 16).flatMap (fun j =>
        [((incLimb j * step.getD i 0) % U, i + j),
         ((incLimb j * step.getD i 0) / U, i + j + 1)])).map
        (fun p => p.1 * U ^ p.2)).sum
      = (step.getD i 0 * U ^ i) * incVal := by
    intro i
    rw [sum_map_flatMap]
    have point : ∀ j, (([((incLimb j * step.getD i 0) % U, i + j),
        ((incLimb j * step.getD i 0) / U, i + j + 1)]).map
        (fun p => p.1 * U ^ p.2)).sum
        = (step.getD i 0 * U ^ i) * (incLimb j * U ^ j) := by
      intro j
      have hm := Nat.div_add_mod (incLimb j * step.getD i 0) U
      simp only [List.map_cons, List.map_nil, List.sum_cons, List.sum_nil, Nat.add_zero]
      calc ((incLimb j * step.getD i 0) % U) * U ^ (i + j)
            + ((incLimb j * step.getD i 0) / U) * U ^ (i + j + 1)
          = ((incLimb j * step.getD i 0) % U
              + U * ((incLimb j * step.getD i 0) / U)) * U ^ (i + j) := by
            rw [pow_succ]
            ring
        _ = (incLimb j * step.getD i 0) * U ^ (i + j) := by rw [Nat.add_comm, hm]
        _ = (step.getD i 0 * U ^ i) * (incLimb j * U ^ j) := by
            rw [pow_add]
            ring
    have hmap : (List.range 16).map (fun j =>
          (([((incLimb j * step.getD i 0) % U, i + j),
             ((incLimb j * step.getD i 0) / U, i + j + 1)]).map
            (fun p => p.1 * U ^ p.2)).sum)
        = (List.range 16).map (fun j => (step.getD i 0 * U ^ i) * (incLimb j * U ^ j)) :=
      List.map_congr_left (fun j _ => point j)
    rw [hmap, List.sum_map_mul_left, ← limbsToNat_map_range]
    rfl
  have hmap2 : (List.range 16).map (fun i =>
        (((List.range 16).flatMap (fun j =>
          [((incLimb j * step.getD i 0) % U, i + j),
           ((incLimb j * step.getD i 0) / U, i + j + 1)])).map
          (fun p => p.1 * U ^ p.2)).sum)
      = (List.range 16).map (fun i => (step.getD i 0 * U ^ i) * incVal) :=
    List.map_congr_left (fun i _ => inner i)
  rw [hmap2, List.sum_map_mul_right]
  have hsg := sum_getD step
  rw [hstep] at hsg
  rw [hsg]

theorem bigJumpOps_bounded (step : List Nat) (hstep : Reduced step) :
    ∀ p ∈ bigJumpOps step, p.1 < U := by
  intro p hp
  rcases List.mem_flatMap.mp hp with ⟨i, _, hmem⟩
  rcases List.mem_flatMap.mp hmem with ⟨j, hj, hmem2⟩
  have hlim : incLimb j < U := incLimb_lt j (List.mem_range.mp hj)
  have hsd : step.getD i 0 < U := getD_lt_U step hstep i
  rcases List.mem_cons.mp hmem2 with h1 | h2
  · subst h1
    exact Nat.mod_lt _ U_pos
  · rcases List.mem_cons.mp h2 with h3 | h4
    · subst h3
      rw [Nat.div_lt_iff_lt_mul U_pos]
      exact Nat.mul_lt_mul'' hlim hsd
    · simp at h4

theorem big_jump_limbs16 (s step : List Nat) (hs : Limbs16 s) :
    Limbs16 (big_jump s step) := by
  rw [big_jump_eq_apply s step hs]
  exact applyAddCarries_limbs16 _ _ hs

theorem big_jump_toNat (s step : List Nat) (hs : Limbs16 s) (hstep : Limbs16 step) :
    limbsToNat (big_jump s step)
      = (limbsToNat s + limbsToNat step * incVal) % U ^ 16 := by
  rw [big_jump_eq_apply s step hs,
      applyAddCarries_toNat _ _ hs (bigJumpOps_bounded step hstep.2),
      bigJumpOps_sum step hstep.1]

-- ─────────────────────────────────────────────────────────────────────────
-- Period of the counter
-- ─────────────────────────────────────────────────────────────────────────

theorem incVal_odd : incVal % 2 = 1 := by decide

theorem incVal_coprime : Nat.Coprime incVal (U ^ 16) := by
  have h2 : Nat.Coprime incVal 2 :=
    Nat.coprime_two_right.mpr (Nat.odd_iff.mpr incVal_odd)
  have hU : U ^ 16 = 2 ^ 1024 := by
    rw [show U = 2 ^ 64 from rfl, ← pow_mul]
  rw [hU]
  exact h2.pow_right 1024

theorem iterate_ne (s : List Nat) (k : Nat) (hs : Limbs16 s) (hk1 : 1 ≤ k)
    (hk2 : k < U ^ 16) : increment_once^[k] s ≠ s := by
  intro heq
  have hself : limbsToNat s < U ^ 16 := by
    have := limbsToNat_lt s hs.2
    rwa [hs.1] at this
  have h1 := iterate_inc_toNat k s hs
  rw [heq] at h1
  have hM : 0 < U ^ 16 := pow_pos U_pos 16
  have hr : (k * incVal) % U ^ 16 = 0 := by
    have hrlt : (k * incVal) % U ^ 16 < U ^ 16 := Nat.mod_lt _ hM
    have hform : limbsToNat s = (limbsToNat s + (k * incVal) % U ^ 16) % U ^ 16 := by
      rw [Nat.add_mod_mod]
      exact h1
    by_cases hcase : limbsToNat s + (k * incVal) % U ^ 16 < U ^ 16
    · rw [Nat.mod_eq_of_lt hcase] at hform
      omega
    · rw [Nat.mod_eq_sub_mod (by omega),
          Nat.mod_eq_of_lt (by omega : limbsToNat s + (k * incVal) % U ^ 16 - U ^ 16 < U ^ 16)]
        at hform
      omega
  have hdvd : U ^ 16 ∣ k * incVal := Nat.dvd_of_mod_eq_zero hr
  have hdvdk : U ^ 16 ∣ k := incVal_coprime.symm.dvd_of_dvd_mul_right hdvd
  have := Nat.le_of_dvd (by omega) hdvdk
  omega

theorem iterate_period (s : List Nat) (hs : Limbs16 s) :
    increment_once^[U ^ 16] s = s := by
  have hself : limbsToNat s < U ^ 16 := by
    have := limbsToNat_lt s hs.2
    rwa [hs.1] at this
  have h1 := iterate_inc_limbs16 (U ^ 16) s hs
  apply limbsToNat_inj _ _ (by rw [h1.1, hs.1]) h1.2 hs.2
  rw [iterate_inc_toNat _ _ hs, Nat.add_mul_mod_self_left, Nat.mod_eq_of_lt hself]

-- ─────────────────────────────────────────────────────────────────────────
-- Claims about the counter (C2, C3, C8)
-- ─────────────────────────────────────────────────────────────────────────

/-- C2: for every well-formed `Counter_1024` state and every 64-bit `n`,
`operator+=(n)` produces exactly the state reached by applying `operator++`
n times (so `n = 0` is a no-op and `n = 1` equals one `operator++`), and the
counter value wraps modulo `2^1024`. -/
theorem claim_advance_eq_iterate (s : List Nat) (n : Nat) (hs : Limbs16 s) (hn : n < U) :
    advance s n = increment_once^[n] s
    ∧ limbsToNat (advance s n) = (limbsToNat s + n * incVal) % U ^ 16 :=
  ⟨advance_eq_iterate s n hs hn, advance_toNat s n hs hn⟩

theorem claim_advance_eq_iterate_witness :
    Limbs16 (List.replicate 16 0) ∧ (5 : Nat) < U
    ∧ advance (List.replicate 16 0) 5 = increment_once^[5] (List.replicate 16 0) :=
  ⟨by decide, by decide,
   (claim_advance_eq_iterate (List.replicate 16 0) 5 (by decide) (by decide)).1⟩

/-- C3: two successive `big_jump`s with arbitrary 16-limb step vectors equal
one `big_jump` whose step is their sum as 1024-bit integers modulo `2^1024`. -/
theorem claim_big_jump_compose (s a b : List Nat) (hs : Limbs16 s) (ha : Limbs16 a)
    (hb : Limbs16 b) :
    big_jump (big_jump s a) b = big_jump s (add1024 a b) := by
  have h1 := big_jump_limbs16 s a hs
  have h2 := big_jump_limbs16 _ b h1
  have h3 := big_jump_limbs16 s (add1024 a b) hs
  apply limbsToNat_inj _ _ (by rw [h2.1, h3.1]) h2.2 h3.2
  rw [big_jump_toNat _ b h1 hb, big_jump_toNat s a hs ha,
      big_jump_toNat s _ hs (add1024_limbs16 a b), add1024_toNat,
      Nat.mod_add_mod]
  have hmod : (limbsToNat s + ((limbsToNat a + limbsToNat b) % U ^ 16) * incVal) % U ^ 16
      = (limbsToNat s + (limbsToNat a + limbsToNat b) * incVal) % U ^ 16 :=
    Nat.ModEq.add_left _ (Nat.ModEq.mul_right _ (Nat.mod_modEq _ _))
  rw [hmod]
  congr 1
  ring

theorem claim_big_jump_compose_witness :
    Limbs16 (List.replicate 16 0)
    ∧ Limbs16 (1 :: List.replicate 15 0)
    ∧ Limbs16 (2 :: List.replicate 15 0)
    ∧ big_jump (big_jump (List.replicate 16 0) (1 :: List.replicate 15 0))
        (2 :: List.replicate 15 0)
      = big_jump (List.replicate 16 0)
          (add1024 (1 :: List.replicate 15 0) (2 :: List.replicate 15 0)) :=
  ⟨by decide, by decide, by decide,
   claim_big_jump_compose (List.replicate 16 0) (1 :: List.replicate 15 0)
     (2 :: List.replicate 15 0) (by decide) (by decide) (by decide)⟩

/-- C8: the increment built by the initializer has an odd least-significant
limb, and consequently the counter's period is exactly `2^1024` regardless of
starting state: fewer than `2^1024` applications of `operator++` never return
to the start, and exactly `2^1024` applications do. -/
theorem claim_counter_period (s : List Nat) (k : Nat) (hs : Limbs16 s) :
    increment.getD 0 0 % 2 = 1
    ∧ (1 ≤ k → k < U ^ 16 → increment_once^[k] s ≠ s)
    ∧ increment_once^[U ^ 16] s = s :=
  ⟨by decide, fun h1 h2 => iterate_ne s k hs h1 h2, iterate_period s hs⟩

theorem claim_counter_period_witness :
    Limbs16 (List.replicate 16 0) ∧ (1 : Nat) ≤ 1 ∧ 1 < U ^ 16
    ∧ increment_once^[1] (List.replicate 16 0) ≠ List.replicate 16 0 :=
  ⟨by decide, le_refl 1, by decide,
   (claim_counter_period (List.replicate 16 0) 1 (by decide)).2.1 (le_refl 1)
     (by decide)⟩

-- ─────────────────────────────────────────────────────────────────────────
-- Nasam1024 engine: stream characterization
-- ─────────────────────────────────────────────────────────────────────────

theorem nasam_refill_valid (s : NasamState) (hs : NValid s) :
    NValid (nasam_refill s) := by
  refine ⟨increment_once_limbs16 _ hs.1, ?_, by norm_num [nasam_refill]⟩
  simp [nasam_refill]

theorem nasam_refill_buffer_getD (s : NasamState) (i : Nat) (hi : i < 8) :
    (nasam_refill s).buffer.getD i 0
      = nasam ((increment_once s.counter).getD (i + 8) 0) := by
  show ((List.range 8).map
      (fun j => nasam ((increment_once s.counter).getD (j + 8) 0))).getD i 0 = _
  rw [List.getD_eq_getElem _ _ (by simpa using hi)]
  simp


theorem nasam_step_hi (s : NasamState) (hp : s.pos = 8) :
    nasam_step s = { counter := increment_once s.counter
                     buffer := (List.range 8).map
                       (fun i => nasam ((increment_once s.counter).getD (i + 8) 0))
                     pos := 1 } := by
  show { (if s.pos = 8 then nasam_refill s else s) with
      pos := (if s.pos = 8 then nasam_refill s else s).pos + 1 } = _
  rw [if_pos hp]
  rfl

theorem nasam_step_lo (s : NasamState) (hp : ¬ s.pos = 8) :
    nasam_step s = { s with pos := s.pos + 1 } := by
  show { (if s.pos = 8 then nasam_refill s else s) with
      pos := (if s.pos = 8 then nasam_refill s else s).pos + 1 } = _
  rw [if_neg hp]

theorem nasam_next_val (s : NasamState) (hs : NValid s) :
    (nasam_next s).1 = nasam_out s 0 := by
  have hle : s.pos ≤ 8 := hs.2.2
  by_cases hp : s.pos = 8
  · show (if s.pos = 8 then nasam_refill s else s).buffer.getD
        (if s.pos = 8 then nasam_refill s else s).pos 0 = nasam_out s 0
    rw [if_pos hp]
    show (nasam_refill s).buffer.getD 0 0 = nasam_out s 0
    rw [nasam_refill_buffer_getD s 0 (by omega), nasam_out, if_neg (by omega)]
    have h1 : (0 - (8 - s.pos)) / 8 + 1 = 1 := by rw [hp]
    have h2 : (0 - (8 - s.pos)) % 8 + 8 = 8 := by rw [hp]
    rw [h1, h2, Function.iterate_one]
  · show (if s.pos = 8 then nasam_refill s else s).buffer.getD
        (if s.pos = 8 then nasam_refill s else s).pos 0 = nasam_out s 0
    rw [if_neg hp, nasam_out, if_pos (by omega), Nat.add_zero]

theorem nasam_step_valid (s : NasamState) (hs : NValid s) : NValid (nasam_step s) := by
  have hle : s.pos ≤ 8 := hs.2.2
  by_cases hp : s.pos = 8
  · rw [nasam_step_hi s hp]
    refine ⟨increment_once_limbs16 _ hs.1, by simp, by norm_num⟩
  · rw [nasam_step_lo s hp]
    exact ⟨hs.1, hs.2.1, by
      show s.pos + 1 ≤ 8
      omega⟩

theorem nasam_out_step (s : NasamState) (hs : NValid s) (k : Nat) :
    nasam_out (nasam_step s) k = nasam_out s (k + 1) := by
  have hle : s.pos ≤ 8 := hs.2.2
  by_cases hp : s.pos = 8
  · rw [nasam_step_hi s hp]
    by_cases hk : k < 7
    · rw [nasam_out, if_pos (by norm_num; omega), nasam_out, if_neg (by omega)]
      show ((List.range 8).map
          (fun i => nasam ((increment_once s.counter).getD (i + 8) 0))).getD (1 + k) 0 = _
      have hlen : 1 + k < ((List.range 8).map
          (fun i => nasam ((increment_once s.counter).getD (i + 8) 0))).length := by
        simpa using by omega
      rw [List.getD_eq_getElem _ _ hlen]
      simp only [List.getElem_map, List.getElem_range]
      have e1 : (k + 1 - (8 - s.pos)) / 8 + 1 = 1 := by
        rw [hp]
        have : k + 1 - (8 - 8) = k + 1 := by omega
        rw [this, Nat.div_eq_of_lt (by omega)]
      have e2 : (k + 1 - (8 - s.pos)) % 8 + 8 = k + 1 + 8 := by
        rw [hp]
        have h3 : k + 1 - (8 - 8) = k + 1 := by omega
        rw [h3, Nat.mod_eq_of_lt (by omega)]
      rw [e1, e2, Function.iterate_one]
      congr 2
      omega
    · rw [nasam_out, if_neg (by norm_num; omega), nasam_out, if_neg (by omega)]
      have hm : k - (8 - 1) = k - 7 := by norm_num
      have hm2 : k + 1 - (8 - s.pos) = k - 7 + 8 := by
        rw [hp]
        omega
      rw [hm, hm2]
      have e1 : (k - 7 + 8) / 8 = (k - 7) / 8 + 1 :=
        Nat.add_div_right _ (by norm_num)
      have e2 : (k - 7 + 8) % 8 = (k - 7) % 8 := Nat.add_mod_right _ _
      rw [e1, e2]
      show nasam ((increment_once^[(k - 7) / 8 + 1] (increment_once s.counter)).getD
          ((k - 7) % 8 + 8) 0)
        = nasam ((increment_once^[(k - 7) / 8 + 1 + 1] s.counter).getD
          ((k - 7) % 8 + 8) 0)
      rw [← Function.iterate_succ_apply increment_once ((k - 7) / 8 + 1) s.counter]
  · rw [nasam_step_lo s hp]
    have hpos : s.pos < 8 := by omega
    by_cases hk : k < 8 - (s.pos + 1)
    · rw [nasam_out, if_pos (by show k < 8 - (s.pos + 1); omega), nasam_out,
          if_pos (by omega)]
      show s.buffer.getD (s.pos + 1 + k) 0 = s.buffer.getD (s.pos + (k + 1)) 0
      congr 1
      omega
    · rw [nasam_out, if_neg (by show ¬ k < 8 - (s.pos + 1); omega), nasam_out,
          if_neg (by omega)]
      have hm : k - (8 - (s.pos + 1)) = k + 1 - (8 - s.pos) := by omega
      show nasam ((increment_once^[(k - (8 - (s.pos + 1))) / 8 + 1] s.counter).getD
          ((k - (8 - (s.pos + 1))) % 8 + 8) 0) = _
      rw [hm]

theorem map_range8_getD (C : List Nat) (i : Nat) (hi : i < 8) :
    ((List.range 8).map (fun j => nasam (C.getD (j + 8) 0))).getD i 0
      = nasam (C.getD (i + 8) 0) := by
  rw [List.getD_eq_getElem _ _ (by simpa using hi)]
  simp

theorem nasam_discard_lo (s : NasamState) (n : Nat) (hn : n ≤ 8 - s.pos) :
    nasam_discard s n = { s with pos := s.pos + n } := by
  simp only [nasam_discard]
  rw [if_pos hn]

theorem nasam_discard_hi (s : NasamState) (n : Nat) (hs : NValid s) (hn : n < U)
    (hgt : ¬ n ≤ 8 - s.pos) :
    nasam_discard s n
      = { counter := increment_once^[(n - (8 - s.pos)) / 8 + 1] s.counter
          buffer := (List.range 8).map (fun i =>
            nasam ((increment_once^[(n - (8 - s.pos)) / 8 + 1] s.counter).getD (i + 8) 0))
          pos := (n - (8 - s.pos)) % 8 } := by
  simp only [nasam_discard]
  rw [if_neg hgt]
  have hs1 : (if 0 < (n - (8 - s.pos)) / 8
      then { s with counter := advance s.counter ((n - (8 - s.pos)) / 8) } else s)
      = { s with counter := increment_once^[(n - (8 - s.pos)) / 8] s.counter } := by
    by_cases hf : 0 < (n - (8 - s.pos)) / 8
    · rw [if_pos hf, advance_eq_iterate _ _ hs.1 (by
        have h1 : (n - (8 - s.pos)) / 8 ≤ n :=
          le_trans (Nat.div_le_self _ _) (Nat.sub_le _ _)
        omega)]
    · rw [if_neg hf]
      have h0 : (n - (8 - s.pos)) / 8 = 0 := by omega
      rw [h0, Function.iterate_zero, id_eq]
  rw [hs1]
  show ({ counter := increment_once (increment_once^[(n - (8 - s.pos)) / 8] s.counter)
          buffer := (List.range 8).map (fun i =>
            nasam ((increment_once (increment_once^[(n - (8 - s.pos)) / 8] s.counter)).getD
              (i + 8) 0))
          pos := (n - (8 - s.pos)) % 8 } : NasamState)
      = ({ counter := increment_once^[(n - (8 - s.pos)) / 8 + 1] s.counter
           buffer := (List.range 8).map (fun i =>
             nasam ((increment_once^[(n - (8 - s.pos)) / 8 + 1] s.counter).getD (i + 8) 0))
           pos := (n - (8 - s.pos)) % 8 } : NasamState)
  rw [← Function.iterate_succ_apply' increment_once ((n - (8 - s.pos)) / 8) s.counter]

theorem nasam_discard_valid (s : NasamState) (n : Nat) (hs : NValid s) (hn : n < U) :
    NValid (nasam_discard s n) := by
  by_cases h : n ≤ 8 - s.pos
  · rw [nasam_discard_lo s n h]
    refine ⟨hs.1, hs.2.1, ?_⟩
    show s.pos + n ≤ 8
    have := hs.2.2
    omega
  · rw [nasam_discard_hi s n hs hn h]
    refine ⟨iterate_inc_limbs16 _ _ hs.1, by simp, ?_⟩
    show (n - (8 - s.pos)) % 8 ≤ 8
    have := Nat.mod_lt (n - (8 - s.pos)) (show 0 < 8 by norm_num)
    omega

theorem nasam_out_discard (s : NasamState) (n k : Nat) (hs : NValid s) (hn : n < U) :
    nasam_out (nasam_discard s n) k = nasam_out s (n + k) := by
  have hle : s.pos ≤ 8 := hs.2.2
  by_cases h : n ≤ 8 - s.pos
  · rw [nasam_discard_lo s n h]
    by_cases hk : k < 8 - (s.pos + n)
    · rw [nasam_out, if_pos (show k < 8 - (s.pos + n) from hk), nasam_out,
          if_pos (by omega)]
      show s.buffer.getD (s.pos + n + k) 0 = s.buffer.getD (s.pos + (n + k)) 0
      congr 1
      omega
    · rw [nasam_out, if_neg (show ¬ k < 8 - (s.pos + n) from hk), nasam_out,
          if_neg (by omega)]
      have hm : k - (8 - (s.pos + n)) = n + k - (8 - s.pos) := by omega
      show nasam ((increment_once^[(k - (8 - (s.pos + n))) / 8 + 1] s.counter).getD
          ((k - (8 - (s.pos + n))) % 8 + 8) 0) = _
      rw [hm]
  · rw [nasam_discard_hi s n hs hn h]
    have hm1 : 1 ≤ n - (8 - s.pos) := by omega
    have hrem : (n - (8 - s.pos)) % 8 < 8 := Nat.mod_lt _ (by norm_num)
    by_cases hk : k < 8 - (n - (8 - s.pos)) % 8
    · rw [nasam_out, if_pos (show k < 8 - (n - (8 - s.pos)) % 8 from hk),
          nasam_out, if_neg (by omega)]
      show ((List.range 8).map (fun i =>
          nasam ((increment_once^[(n - (8 - s.pos)) / 8 + 1] s.counter).getD (i + 8) 0))).getD
          ((n - (8 - s.pos)) % 8 + k) 0 = _
      rw [map_range8_getD _ _ (by omega)]
      have hsplit : n + k - (8 - s.pos)
          = 8 * ((n - (8 - s.pos)) / 8) + ((n - (8 - s.pos)) % 8 + k) := by
        have := Nat.div_add_mod (n - (8 - s.pos)) 8
        omega
      have e1 : (n + k - (8 - s.pos)) / 8 = (n - (8 - s.pos)) / 8 := by
        rw [hsplit, Nat.mul_add_div (by norm_num)]
        omega
      have e2 : (n + k - (8 - s.pos)) % 8 = (n - (8 - s.pos)) % 8 + k := by
        rw [hsplit, Nat.mul_add_mod]
        exact Nat.mod_eq_of_lt (by omega)
      rw [e1, e2]
    · rw [nasam_out, if_neg (show ¬ k < 8 - (n - (8 - s.pos)) % 8 from hk),
          nasam_out, if_neg (by omega)]
      have hsplit : n + k - (8 - s.pos)
          = 8 * ((n - (8 - s.pos)) / 8 + 1) + (k - (8 - (n - (8 - s.pos)) % 8)) := by
        have := Nat.div_add_mod (n - (8 - s.pos)) 8
        omega
      have e1 : (n + k - (8 - s.pos)) / 8
          = (n - (8 - s.pos)) / 8 + 1 + (k - (8 - (n - (8 - s.pos)) % 8)) / 8 := by
        rw [hsplit, Nat.mul_add_div (by norm_num)]
      have e2 : (n + k - (8 - s.pos)) % 8 = (k - (8 - (n - (8 - s.pos)) % 8)) % 8 := by
        rw [hsplit, Nat.mul_add_mod]
      show nasam ((increment_once^[(k - (8 - (n - (8 - s.pos)) % 8)) / 8 + 1]
          (increment_once^[(n - (8 - s.pos)) / 8 + 1] s.counter)).getD
          ((k - (8 - (n - (8 - s.pos)) % 8)) % 8 + 8) 0) = _
      rw [← Function.iterate_add_apply, e1, e2]
      have e4 : (k - (8 - (n - (8 - s.pos)) % 8)) / 8 + 1 + ((n - (8 - s.pos)) / 8 + 1)
          = (n - (8 - s.pos)) / 8 + 1 + (k - (8 - (n - (8 - s.pos)) % 8)) / 8 + 1 := by
        omega
      rw [e4]

theorem nasam_nth_eq_out (s : NasamState) (n : Nat) (hs : NValid s) :
    nasam_nthOutput s n = nasam_out s n := by
  induction n generalizing s with
  | zero => exact nasam_next_val s hs
  | succ n ih =>
    show (nasam_next (nasam_step^[n + 1] s)).1 = _
    rw [Function.iterate_succ_apply]
    have h1 : (nasam_next (nasam_step^[n] (nasam_step s))).1
        = nasam_nthOutput (nasam_step s) n := rfl
    rw [h1, ih (nasam_step s) (nasam_step_valid s hs), nasam_out_step s hs n]

-- ─────────────────────────────────────────────────────────────────────────
-- csprng engine: stream characterization
-- ─────────────────────────────────────────────────────────────────────────

theorem cs_refill_ok (perm : PermFn) (s : CsState) (hc : s.ctr + 1 < U) :
    cs_refill perm s
      = ({ s with buffer := perm s.key s.nonce s.ctr, idx := 0, ctr := s.ctr + 1 },
         none) := by
  rw [cs_refill, Nat.mod_eq_of_lt hc, if_neg (by omega)]

theorem cs_refill_wrap (perm : PermFn) (s : CsState) (hc : s.ctr = U - 1) :
    cs_refill perm s
      = ({ s with buffer := perm s.key s.nonce s.ctr, idx := 0, ctr := 0 },
         some CsErr.exhausted) := by
  have h1 : s.ctr + 1 = U := by
    have := U_pos
    omega
  rw [cs_refill, h1, Nat.mod_self, if_pos rfl]

theorem cs_next_lo (perm : PermFn) (s : CsState) (h : s.idx < 8) :
    cs_next perm s = (some (s.buffer.getD s.idx 0), { s with idx := s.idx + 1 }) := by
  rw [cs_next, if_neg (by omega)]

theorem cs_next_hi_ok (perm : PermFn) (s : CsState) (h : 8 ≤ s.idx)
    (hc : s.ctr + 1 < U) :
    cs_next perm s = (some ((perm s.key s.nonce s.ctr).getD 0 0),
      { s with buffer := perm s.key s.nonce s.ctr, idx := 1, ctr := s.ctr + 1 }) := by
  rw [cs_next, if_pos h, cs_refill_ok perm s hc]

theorem cs_next_hi_wrap (perm : PermFn) (s : CsState) (h : 8 ≤ s.idx)
    (hc : s.ctr = U - 1) :
    cs_next perm s
      = (none, { s with buffer := perm s.key s.nonce s.ctr, idx := 0, ctr := 0 }) := by
  rw [cs_next, if_pos h, cs_refill_wrap perm s hc]

theorem cs_step_valid (perm : PermFn) (s : CsState) (hwf : WfPerm perm)
    (hs : CsValid s) (hroom : s.idx = 8 → s.ctr + 1 < U) :
    CsValid (cs_step perm s) := by
  have hle : s.idx ≤ 8 := hs.2.1
  by_cases h : s.idx < 8
  · show CsValid (cs_next perm s).2
    rw [cs_next_lo perm s h]
    exact ⟨hs.1, by show s.idx + 1 ≤ 8; omega, hs.2.2⟩
  · have h8 : s.idx = 8 := by omega
    have hc : s.ctr + 1 < U := hroom h8
    show CsValid (cs_next perm s).2
    rw [cs_next_hi_ok perm s (by omega) hc]
    exact ⟨hwf _ _ _, by norm_num, hc⟩

theorem cs_next_val (perm : PermFn) (s : CsState) (hs : CsValid s)
    (hroom : s.idx = 8 → s.ctr + 1 < U) :
    (cs_next perm s).1 = some (cs_out perm s 0) := by
  have hle : s.idx ≤ 8 := hs.2.1
  by_cases h : s.idx < 8
  · rw [cs_next_lo perm s h, cs_out, if_pos (by omega)]
    rfl
  · have h8 : s.idx = 8 := by omega
    rw [cs_next_hi_ok perm s (by omega) (hroom h8), cs_out, if_neg (by omega)]
    have e1 : s.ctr + (0 - (8 - s.idx)) / 8 = s.ctr := by
      rw [h8]
      norm_num
    have e2 : (0 - (8 - s.idx)) % 8 = 0 := by
      rw [h8]
    rw [e1, e2]

theorem cs_out_step (perm : PermFn) (s : CsState) (hs : CsValid s)
    (hroom : s.idx = 8 → s.ctr + 1 < U) (k : Nat) :
    cs_out perm (cs_step perm s) k = cs_out perm s (k + 1) := by
  have hle : s.idx ≤ 8 := hs.2.1
  by_cases h : s.idx < 8
  · have hstep : cs_step perm s = { s with idx := s.idx + 1 } := by
      show (cs_next perm s).2 = _
      rw [cs_next_lo perm s h]
    rw [hstep]
    by_cases hk : k < 8 - (s.idx + 1)
    · rw [cs_out, if_pos (show k < 8 - (s.idx + 1) from hk), cs_out, if_pos (by omega)]
      show s.buffer.getD (s.idx + 1 + k) 0 = s.buffer.getD (s.idx + (k + 1)) 0
      congr 1
      omega
    · rw [cs_out, if_neg (show ¬ k < 8 - (s.idx + 1) from hk), cs_out, if_neg (by omega)]
      have hm : k - (8 - (s.idx + 1)) = k + 1 - (8 - s.idx) := by omega
      show (perm s.key s.nonce (s.ctr + (k - (8 - (s.idx + 1))) / 8)).getD
          ((k - (8 - (s.idx + 1))) % 8) 0 = _
      rw [hm]
  · have h8 : s.idx = 8 := by omega
    have hc : s.ctr + 1 < U := hroom h8
    have hstep : cs_step perm s
        = { s with buffer := perm s.key s.nonce s.ctr, idx := 1, ctr := s.ctr + 1 } := by
      show (cs_next perm s).2 = _
      rw [cs_next_hi_ok perm s (by omega) hc]
    rw [hstep]
    by_cases hk : k < 7
    · rw [cs_out, if_pos (show k < 8 - 1 by omega), cs_out, if_neg (by omega)]
      show (perm s.key s.nonce s.ctr).getD (1 + k) 0 = _
      have e1 : s.ctr + (k + 1 - (8 - s.idx)) / 8 = s.ctr := by
        rw [h8]
        have h2 : k + 1 - (8 - 8) = k + 1 := by omega
        rw [h2, Nat.div_eq_of_lt (by omega)]
        omega
      have e2 : (k + 1 - (8 - s.idx)) % 8 = 1 + k := by
        rw [h8]
        have h2 : k + 1 - (8 - 8) = k + 1 := by omega
        rw [h2, Nat.mod_eq_of_lt (by omega)]
        omega
      rw [e1, e2]
    · rw [cs_out, if_neg (show ¬ k < 8 - 1 by omega), cs_out, if_neg (by omega)]
      have hm2 : k + 1 - (8 - s.idx) = k - 7 + 8 := by
        rw [h8]
        omega
      have e1 : s.ctr + 1 + (k - (8 - 1)) / 8 = s.ctr + (k + 1 - (8 - s.idx)) / 8 := by
        rw [hm2, Nat.add_div_right _ (by norm_num)]
        have h3 : k - (8 - 1) = k - 7 := by norm_num
        rw [h3]
        omega
      have e2 : (k - (8 - 1)) % 8 = (k + 1 - (8 - s.idx)) % 8 := by
        rw [hm2, Nat.add_mod_right]
      rw [e1, e2]

theorem cs_nth_eq_out (perm : PermFn) (hwf : WfPerm perm) :
    ∀ (n : Nat) (s : CsState), CsValid s → s.ctr + (s.idx + n) / 8 < U →
      cs_nth perm s n = some (cs_out perm s n) := by
  intro n
  induction n with
  | zero =>
    intro s hs hroom
    apply cs_next_val perm s hs
    intro h8
    rw [h8] at hroom
    have : (8 + 0) / 8 = 1 := by norm_num
    rw [this] at hroom
    omega
  | succ n ih =>
    intro s hs hroom
    have hle : s.idx ≤ 8 := hs.2.1
    have hroom1 : s.idx = 8 → s.ctr + 1 < U := by
      intro h8
      rw [h8] at hroom
      have h1 : 1 ≤ (8 + (n + 1)) / 8 :=
        (Nat.one_le_div_iff (by norm_num)).mpr (by omega)
      omega
    have hvalid2 := cs_step_valid perm s hwf hs hroom1
    have hroom2 : (cs_step perm s).ctr + ((cs_step perm s).idx + n) / 8 < U := by
      by_cases h : s.idx < 8
      · have hstep : cs_step perm s = { s with idx := s.idx + 1 } := by
          show (cs_next perm s).2 = _
          rw [cs_next_lo perm s h]
        rw [hstep]
        show s.ctr + (s.idx + 1 + n) / 8 < U
        have : s.idx + 1 + n = s.idx + (n + 1) := by omega
        rw [this]
        exact hroom
      · have h8 : s.idx = 8 := by omega
        have hstep : cs_step perm s
            = { s with buffer := perm s.key s.nonce s.ctr, idx := 1, ctr := s.ctr + 1 } := by
          show (cs_next perm s).2 = _
          rw [cs_next_hi_ok perm s (by omega) (hroom1 h8)]
        rw [hstep]
        show s.ctr + 1 + (1 + n) / 8 < U
        rw [h8] at hroom
        have hsplit : 8 + (n + 1) = 8 * 1 + (1 + n) := by omega
        rw [hsplit, Nat.mul_add_div (by norm_num)] at hroom
        omega
    have h1 : cs_nth perm s (n + 1) = cs_nth perm (cs_step perm s) n := by
      show (cs_next perm ((cs_step perm)^[n + 1] s)).1 = _
      rw [Function.iterate_succ_apply]
      rfl
    rw [h1, ih (cs_step perm s) hvalid2 hroom2, cs_out_step perm s hs hroom1 n]

theorem cs_discard_zero (perm : PermFn) (s : CsState) :
    cs_discard perm s 0 = (s, none) := by
  rw [cs_discard, if_pos rfl]

theorem cs_discard_lo (perm : PermFn) (s : CsState) (n : Nat) (h0 : n ≠ 0)
    (hlt : n < 8 - s.idx) :
    cs_discard perm s n = ({ s with idx := s.idx + n }, none) := by
  simp only [cs_discard]
  rw [if_neg h0, if_pos hlt]

theorem cs_discard_hi_rem (perm : PermFn) (s : CsState) (n : Nat)
    (h0 : n ≠ 0) (hge : ¬ n < 8 - s.idx)
    (hroom : s.ctr + (n - (8 - s.idx)) / 8 + 1 < U)
    (hrem : (n - (8 - s.idx)) % 8 ≠ 0) :
    cs_discard perm s n
      = ({ s with buffer := perm s.key s.nonce (s.ctr + (n - (8 - s.idx)) / 8)
                  idx := (n - (8 - s.idx)) % 8
                  ctr := s.ctr + (n - (8 - s.idx)) / 8 + 1 }, none) := by
  simp only [cs_discard]
  rw [if_neg h0, if_neg hge,
      if_neg (show ¬ (0 < (n - (8 - s.idx)) / 8
        ∧ U - 1 - (n - (8 - s.idx)) / 8 < s.ctr) by
          push_neg
          intro h1
          omega)]
  have hc2 : (if 0 < (n - (8 - s.idx)) / 8
      then s.ctr + (n - (8 - s.idx)) / 8 else s.ctr) = s.ctr + (n - (8 - s.idx)) / 8 := by
    by_cases hf : 0 < (n - (8 - s.idx)) / 8
    · rw [if_pos hf]
    · rw [if_neg hf]
      omega
  rw [hc2, if_pos hrem,
      cs_refill_ok perm { s with idx := 8, ctr := s.ctr + (n - (8 - s.idx)) / 8 }
        (show s.ctr + (n - (8 - s.idx)) / 8 + 1 < U from hroom)]

theorem cs_discard_hi_norem (perm : PermFn) (s : CsState) (n : Nat)
    (h0 : n ≠ 0) (hge : ¬ n < 8 - s.idx)
    (hroom : s.ctr + (n - (8 - s.idx)) / 8 + 1 < U)
    (hrem : (n - (8 - s.idx)) % 8 = 0) :
    cs_discard perm s n
      = ({ s with idx := 8, ctr := s.ctr + (n - (8 - s.idx)) / 8 }, none) := by
  simp only [cs_discard]
  rw [if_neg h0, if_neg hge,
      if_neg (show ¬ (0 < (n - (8 - s.idx)) / 8
        ∧ U - 1 - (n - (8 - s.idx)) / 8 < s.ctr) by
          push_neg
          intro h1
          omega)]
  have hc2 : (if 0 < (n - (8 - s.idx)) / 8
      then s.ctr + (n - (8 - s.idx)) / 8 else s.ctr) = s.ctr + (n - (8 - s.idx)) / 8 := by
    by_cases hf : 0 < (n - (8 - s.idx)) / 8
    · rw [if_pos hf]
    · rw [if_neg hf]
      omega
  rw [hc2, if_neg (show ¬ (n - (8 - s.idx)) % 8 ≠ 0 by omega)]

theorem cs_discard_props (perm : PermFn) (s : CsState) (n : Nat) (hwf : WfPerm perm)
    (hs : CsValid s) (hroom : s.ctr + (s.idx + n) / 8 < U) :
    (cs_discard perm s n).2 = none
    ∧ CsValid (cs_discard perm s n).1
    ∧ ((cs_discard perm s n).1.idx = 8 → (cs_discard perm s n).1.ctr + 1 < U)
    ∧ ∀ k, cs_out perm (cs_discard perm s n).1 k = cs_out perm s (n + k) := by
  have hle : s.idx ≤ 8 := hs.2.1
  have hctr : s.ctr < U := hs.2.2
  by_cases h0 : n = 0
  · subst h0
    rw [cs_discard_zero]
    refine ⟨rfl, hs, ?_, fun k => by rw [Nat.zero_add]⟩
    intro h8
    have h8A : s.idx = 8 := h8
    rw [h8A] at hroom
    have h1 : (8 + 0) / 8 = 1 := by norm_num
    rw [h1] at hroom
    show s.ctr + 1 < U
    omega
  by_cases hlt : n < 8 - s.idx
  · rw [cs_discard_lo perm s n h0 hlt]
    refine ⟨rfl, ⟨hs.1, by show s.idx + n ≤ 8; omega, hctr⟩, ?_, ?_⟩
    · intro h8
      have h8A : s.idx + n = 8 := h8
      omega
    · intro k
      by_cases hk : k < 8 - (s.idx + n)
      · rw [cs_out, if_pos (show k < 8 - (s.idx + n) from hk), cs_out, if_pos (by omega)]
        show s.buffer.getD (s.idx + n + k) 0 = s.buffer.getD (s.idx + (n + k)) 0
        congr 1
        omega
      · rw [cs_out, if_neg (show ¬ k < 8 - (s.idx + n) from hk), cs_out, if_neg (by omega)]
        have hm : k - (8 - (s.idx + n)) = n + k - (8 - s.idx) := by omega
        show (perm s.key s.nonce (s.ctr + (k - (8 - (s.idx + n))) / 8)).getD
            ((k - (8 - (s.idx + n))) % 8) 0 = _
        rw [hm]
  · -- n reaches past the current buffer
    have hfull1 : (n - (8 - s.idx)) / 8 + 1 = (s.idx + n) / 8 := by
      have hsplit : s.idx + n = (n - (8 - s.idx)) + 8 := by omega
      rw [hsplit, Nat.add_div_right _ (by norm_num)]
    have hroom2 : s.ctr + (n - (8 - s.idx)) / 8 + 1 < U := by
      have : s.ctr + ((n - (8 - s.idx)) / 8 + 1) < U := by
        rw [hfull1]
        exact hroom
      omega
    have hdm := Nat.div_add_mod (n - (8 - s.idx)) 8
    have hrem8 : (n - (8 - s.idx)) % 8 < 8 := Nat.mod_lt _ (by norm_num)
    by_cases hrem : (n - (8 - s.idx)) % 8 ≠ 0
    · rw [cs_discard_hi_rem perm s n h0 hlt hroom2 hrem]
      refine ⟨rfl, ⟨hwf _ _ _, by show (n - (8 - s.idx)) % 8 ≤ 8; omega, by
          show s.ctr + (n - (8 - s.idx)) / 8 + 1 < U
          exact hroom2⟩, ?_, ?_⟩
      · intro h8
        have h8A : (n - (8 - s.idx)) % 8 = 8 := h8
        omega
      · intro k
        by_cases hk : k < 8 - (n - (8 - s.idx)) % 8
        · rw [cs_out, if_pos (show k < 8 - (n - (8 - s.idx)) % 8 from hk),
              cs_out, if_neg (by omega)]
          show (perm s.key s.nonce (s.ctr + (n - (8 - s.idx)) / 8)).getD
              ((n - (8 - s.idx)) % 8 + k) 0 = _
          have hsplit : n + k - (8 - s.idx)
              = 8 * ((n - (8 - s.idx)) / 8) + ((n - (8 - s.idx)) % 8 + k) := by omega
          have e1 : (n + k - (8 - s.idx)) / 8 = (n - (8 - s.idx)) / 8 := by
            rw [hsplit, Nat.mul_add_div (by norm_num)]
            omega
          have e2 : (n + k - (8 - s.idx)) % 8 = (n - (8 - s.idx)) % 8 + k := by
            rw [hsplit, Nat.mul_add_mod]
            exact Nat.mod_eq_of_lt (by omega)
          rw [e1, e2]
        · rw [cs_out, if_neg (show ¬ k < 8 - (n - (8 - s.idx)) % 8 from hk),
              cs_out, if_neg (by omega)]
          show (perm s.key s.nonce (s.ctr + (n - (8 - s.idx)) / 8 + 1
              + (k - (8 - (n - (8 - s.idx)) % 8)) / 8)).getD
              ((k - (8 - (n - (8 - s.idx)) % 8)) % 8) 0 = _
          have hsplit : n + k - (8 - s.idx)
              = 8 * ((n - (8 - s.idx)) / 8 + 1) + (k - (8 - (n - (8 - s.idx)) % 8)) := by
            omega
          have e1 : (n + k - (8 - s.idx)) / 8
              = (n - (8 - s.idx)) / 8 + 1 + (k - (8 - (n - (8 - s.idx)) % 8)) / 8 := by
            rw [hsplit, Nat.mul_add_div (by norm_num)]
          have e2 : (n + k - (8 - s.idx)) % 8
              = (k - (8 - (n - (8 - s.idx)) % 8)) % 8 := by
            rw [hsplit, Nat.mul_add_mod]
          rw [e1, e2]
          congr 2
          omega
    · have hrem0 : (n - (8 - s.idx)) % 8 = 0 := by omega
      rw [cs_discard_hi_norem perm s n h0 hlt hroom2 hrem0]
      refine ⟨rfl, ⟨hs.1, by norm_num, by
          show s.ctr + (n - (8 - s.idx)) / 8 < U
          omega⟩, ?_, ?_⟩
      · intro _
        show s.ctr + (n - (8 - s.idx)) / 8 + 1 < U
        exact hroom2
      · intro k
        rw [cs_out, if_neg (by norm_num), cs_out, if_neg (by omega)]
        show (perm s.key s.nonce (s.ctr + (n - (8 - s.idx)) / 8 + (k - (8 - 8)) / 8)).getD
            ((k - (8 - 8)) % 8) 0 = _
        have hk0 : k - (8 - 8) = k := by omega
        have hsplit : n + k - (8 - s.idx) = 8 * ((n - (8 - s.idx)) / 8) + k := by omega
        have e1 : (n + k - (8 - s.idx)) / 8 = (n - (8 - s.idx)) / 8 + k / 8 := by
          rw [hsplit, Nat.mul_add_div (by norm_num)]
        have e2 : (n + k - (8 - s.idx)) % 8 = k % 8 := by
          rw [hsplit, Nat.mul_add_mod]
        rw [hk0, e1, e2]
        congr 2
        omega

-- ─────────────────────────────────────────────────────────────────────────
-- Claim C1: discard/next agreement for both engines
-- ─────────────────────────────────────────────────────────────────────────

/-- C1: for both engines, every well-formed engine state and every 64-bit
n, calling `discard(n)` and then `next()` yields the same value as calling
`next()` n+1 times from the same state and keeping only the last result.
For the cryptographic engine the block counter must have room for the
skipped blocks (otherwise `discard` throws); under that proviso `discard`
reports no error and both sides produce the same value. -/
theorem claim_discard_next :
    (∀ (s : NasamState) (n : Nat), NValid s → n < U →
      (nasam_next (nasam_discard s n)).1 = nasam_nthOutput s n)
    ∧ (∀ (perm : PermFn) (s : CsState) (n : Nat), WfPerm perm → CsValid s → n < U →
        s.ctr + (s.idx + n) / 8 < U →
        (cs_discard perm s n).2 = none
        ∧ (cs_next perm (cs_discard perm s n).1).1 = some (cs_out perm s n)
        ∧ cs_nth perm s n = some (cs_out perm s n)) := by
  constructor
  · intro s n hs hn
    rw [nasam_next_val _ (nasam_discard_valid s n hs hn),
        nasam_out_discard s n 0 hs hn, Nat.add_zero, nasam_nth_eq_out s n hs]
  · intro perm s n hwf hs hn hroom
    obtain ⟨herr, hvalid, hnext_room, hout⟩ := cs_discard_props perm s n hwf hs hroom
    refine ⟨herr, ?_, cs_nth_eq_out perm hwf n s hs hroom⟩
    rw [cs_next_val perm _ hvalid hnext_room, hout 0, Nat.add_zero]

theorem claim_discard_next_witness :
    NValid { counter := List.replicate 16 0, buffer := List.replicate 8 0, pos := 8 }
    ∧ (3 : Nat) < U
    ∧ (nasam_next (nasam_discard
        { counter := List.replicate 16 0, buffer := List.replicate 8 0, pos := 8 } 3)).1
      = nasam_nthOutput
        { counter := List.replicate 16 0, buffer := List.replicate 8 0, pos := 8 } 3
    ∧ CsValid { key := [], nonce := [], ctr := 0, buffer := List.replicate 8 0, idx := 8 }
    ∧ (cs_discard (fun _ _ c => List.replicate 8 c)
        { key := [], nonce := [], ctr := 0, buffer := List.replicate 8 0, idx := 8 } 10).2
        = none
    ∧ (cs_next (fun _ _ c => List.replicate 8 c)
        (cs_discard (fun _ _ c => List.replicate 8 c)
          { key := [], nonce := [], ctr := 0, buffer := List.replicate 8 0, idx := 8 }
          10).1).1
      = some (cs_out (fun _ _ c => List.replicate 8 c)
          { key := [], nonce := [], ctr := 0, buffer := List.replicate 8 0, idx := 8 } 10) :=
  ⟨by decide, by decide,
   claim_discard_next.1
     { counter := List.replicate 16 0, buffer := List.replicate 8 0, pos := 8 } 3
     (by decide) (by decide),
   by decide,
   (claim_discard_next.2 (fun _ _ c => List.replicate 8 c)
     { key := [], nonce := [], ctr := 0, buffer := List.replicate 8 0, idx := 8 } 10
     (fun _ _ _ => rfl) (by decide) (by decide) (by decide)).1,
   (claim_discard_next.2 (fun _ _ c => List.replicate 8 c)
     { key := [], nonce := [], ctr := 0, buffer := List.replicate 8 0, idx := 8 } 10
     (fun _ _ _ => rfl) (by decide) (by decide) (by decide)).2.1⟩

-- ─────────────────────────────────────────────────────────────────────────
-- Claim C5: overflow detection in csprng::discard
-- ─────────────────────────────────────────────────────────────────────────

/-- C5 counterexample: the claim asserts that on the overflow path no engine
field, word_index included, has been modified; but the source sets
`word_index = 8` before the overflow check, so a state with `word_index = 0`
fails with `word_index` changed. -/
theorem claim_discard_overflow_cex :
    (cs_discard (fun _ _ c => List.replicate 8 c)
      { key := [], nonce := [], ctr := U - 1, buffer := List.replicate 8 0, idx := 0 }
      16).2 = some CsErr.discardOverflow
    ∧ (cs_discard (fun _ _ c => List.replicate 8 c)
      { key := [], nonce := [], ctr := U - 1, buffer := List.replicate 8 0, idx := 0 }
      16).1.idx ≠ 0 := by
  constructor
  · decide
  · decide

/-- C5 amended: for every state entering the whole-block skip path, if the
skip would overflow the 64-bit block counter, `discard` fails with the
distinct overflow error with key, nonce, block counter and buffer untouched,
but with `word_index` already set to 8 (the buffer marked exhausted); on the
non-overflow path (with the trailing refill also in range) no error is
raised and the skip advances the block counter by exactly the number of
whole skipped blocks, plus one more when a trailing refill generates the
partially consumed block. -/
theorem claim_discard_overflow_amended (perm : PermFn) (s : CsState) (n : Nat)
    (hn : n < U) (h0 : n ≠ 0) (hge : ¬ n < 8 - s.idx) :
    (0 < (n - (8 - s.idx)) / 8 ∧ U ≤ s.ctr + (n - (8 - s.idx)) / 8 →
      cs_discard perm s n = ({ s with idx := 8 }, some CsErr.discardOverflow))
    ∧ (s.ctr + (n - (8 - s.idx)) / 8 + 1 < U →
      (cs_discard perm s n).2 = none
      ∧ (cs_discard perm s n).1.ctr
        = s.ctr + (n - (8 - s.idx)) / 8
          + (if (n - (8 - s.idx)) % 8 ≠ 0 then 1 else 0)) := by
  have hfb : (n - (8 - s.idx)) / 8 ≤ n - (8 - s.idx) := Nat.div_le_self _ _
  constructor
  · rintro ⟨hpos, hov⟩
    simp only [cs_discard]
    rw [if_neg h0, if_neg hge,
        if_pos (show 0 < (n - (8 - s.idx)) / 8 ∧ U - 1 - (n - (8 - s.idx)) / 8 < s.ctr by
          constructor
          · exact hpos
          · omega)]
  · intro hroom
    by_cases hrem : (n - (8 - s.idx)) % 8 ≠ 0
    · rw [cs_discard_hi_rem perm s n h0 hge hroom hrem, if_pos hrem]
      exact ⟨rfl, rfl⟩
    · have hrem0 : (n - (8 - s.idx)) % 8 = 0 := by omega
      rw [cs_discard_hi_norem perm s n h0 hge hroom hrem0, if_neg hrem]
      exact ⟨rfl, by
        show s.ctr + (n - (8 - s.idx)) / 8 = s.ctr + (n - (8 - s.idx)) / 8 + 0
        omega⟩

theorem claim_discard_overflow_amended_witness :
    (16 : Nat) < U ∧ (16 : Nat) ≠ 0
    ∧ ¬ (16 : Nat) < 8 - ({ key := [], nonce := [], ctr := U - 1, buffer := List.replicate 8 0, idx := (0 : Nat) } : CsState).idx
    ∧ (0 < ((16 : Nat) - (8 - 0)) / 8 ∧ U ≤ (U - 1) + (16 - (8 - 0)) / 8)
    ∧ cs_discard (fun _ _ c => List.replicate 8 c)
        { key := [], nonce := [], ctr := U - 1, buffer := List.replicate 8 0, idx := 0 } 16
      = ({ key := [], nonce := [], ctr := U - 1, buffer := List.replicate 8 0, idx := 8 },
         some CsErr.discardOverflow) :=
  ⟨by decide, by decide, by decide, by decide,
   (claim_discard_overflow_amended (fun _ _ c => List.replicate 8 c)
     { key := [], nonce := [], ctr := U - 1, buffer := List.replicate 8 0, idx := 0 } 16
     (by decide) (by decide) (by decide)).1 (by decide)⟩

-- ─────────────────────────────────────────────────────────────────────────
-- Claim C9: the engine survives keystream exhaustion in refill
-- ─────────────────────────────────────────────────────────────────────────

theorem cs_step_iterate_lo (perm : PermFn) (s : CsState) :
    ∀ k, s.idx + k ≤ 8 → (cs_step perm)^[k] s = { s with idx := s.idx + k } := by
  intro k
  induction k with
  | zero =>
    intro _
    show s = { s with idx := s.idx + 0 }
    rfl
  | succ k ih =>
    intro hk
    rw [Function.iterate_succ_apply', ih (by omega)]
    show (cs_next perm { s with idx := s.idx + k }).2 = _
    rw [cs_next_lo perm _ (show s.idx + k < 8 by omega)]
    show ({ s with idx := s.idx + k + 1 } : CsState) = { s with idx := s.idx + (k + 1) }
    rw [Nat.add_assoc]

/-- C9: when `refill_buffer` detects block-counter exhaustion (called here
through `operator()` on an exhausted buffer with the counter at its maximum),
the exception is raised only after the buffer has been overwritten with the
block generated at counter `2^64 - 1`, the word index has been reset to 0 and
the counter has wrapped to 0; the engine remains usable: the next 8
`operator()` calls return that buffer's words without throwing, and the call
after them refills from block counter 0 under the same key and nonce. -/
theorem claim_refill_wrap_usable (perm : PermFn) (s : CsState) (hs : CsValid s)
    (h8 : 8 ≤ s.idx) (hc : s.ctr = U - 1) :
    (cs_next perm s).1 = none
    ∧ (cs_next perm s).2
      = { s with buffer := perm s.key s.nonce (U - 1), idx := 0, ctr := 0 }
    ∧ (∀ k, k < 8 →
        (cs_next perm ((cs_step perm)^[k] (cs_next perm s).2)).1
          = some ((perm s.key s.nonce (U - 1)).getD k 0))
    ∧ ((cs_step perm)^[8] (cs_next perm s).2).ctr = 0
    ∧ (cs_next perm ((cs_step perm)^[8] (cs_next perm s).2)).1
      = some ((perm s.key s.nonce 0).getD 0 0) := by
  have hwrap := cs_next_hi_wrap perm s h8 hc
  have hsnd : (cs_next perm s).2
      = { s with buffer := perm s.key s.nonce (U - 1), idx := 0, ctr := 0 } := by
    rw [hwrap, hc]
  refine ⟨by rw [hwrap], hsnd, ?_, ?_, ?_⟩
  · intro k hk
    rw [hsnd, cs_step_iterate_lo perm _ k (by show 0 + k ≤ 8; omega)]
    rw [cs_next_lo perm _ (show (0 : Nat) + k < 8 by omega)]
    show some ((perm s.key s.nonce (U - 1)).getD (0 + k) 0) = _
    rw [Nat.zero_add]
  · rw [hsnd, cs_step_iterate_lo perm _ 8 (by norm_num)]
  · rw [hsnd, cs_step_iterate_lo perm _ 8 (by norm_num)]
    rw [cs_next_hi_ok perm _ (by norm_num) (by
      show (0 : Nat) + 1 < U
      have := one_lt_U
      omega)]

theorem claim_refill_wrap_usable_witness :
    CsValid { key := [], nonce := [], ctr := U - 1, buffer := List.replicate 8 0, idx := (8 : Nat) }
    ∧ (8 : Nat) ≤ 8 ∧ U - 1 = U - 1
    ∧ (cs_next (fun _ _ c => List.replicate 8 c)
        { key := [], nonce := [], ctr := U - 1, buffer := List.replicate 8 0, idx := 8 }).1
      = none
    ∧ (cs_next (fun _ _ c => List.replicate 8 c)
        { key := [], nonce := [], ctr := U - 1, buffer := List.replicate 8 0, idx := 8 }).2
      = { key := [], nonce := [], ctr := 0,
          buffer := List.replicate 8 (U - 1), idx := 0 } :=
  ⟨by decide, le_refl 8, rfl,
   (claim_refill_wrap_usable (fun _ _ c => List.replicate 8 c)
     { key := [], nonce := [], ctr := U - 1, buffer := List.replicate 8 0, idx := 8 }
     (by decide) (le_refl 8) rfl).1,
   (claim_refill_wrap_usable (fun _ _ c => List.replicate 8 c)
     { key := [], nonce := [], ctr := U - 1, buffer := List.replicate 8 0, idx := 8 }
     (by decide) (le_refl 8) rfl).2.1⟩

-- ─────────────────────────────────────────────────────────────────────────
-- Claim C7: csprng equality comparison
-- ─────────────────────────────────────────────────────────────────────────

theorem or_eq_zero_iff_both (a b : Nat) : a ||| b = 0 ↔ a = 0 ∧ b = 0 := by
  constructor
  · intro h
    have hbit : ∀ i, (a.testBit i || b.testBit i) = false := by
      intro i
      have h2 := congrArg (fun t => Nat.testBit t i) h
      simpa [Nat.testBit_lor] using h2
    constructor
    · apply Nat.eq_of_testBit_eq
      intro i
      have h3 := hbit i
      rw [Bool.or_eq_false_iff] at h3
      simp [h3.1]
    · apply Nat.eq_of_testBit_eq
      intro i
      have h3 := hbit i
      rw [Bool.or_eq_false_iff] at h3
      simp [h3.2]
  · rintro ⟨rfl, rfl⟩
    rfl

theorem foldl_or_eq_zero_iff (f : Nat → Nat) (l : List Nat) (acc : Nat) :
    l.foldl (fun a i => a ||| f i) acc = 0 ↔ acc = 0 ∧ ∀ i ∈ l, f i = 0 := by
  induction l generalizing acc with
  | nil => simp
  | cons x rest ih =>
    rw [List.foldl_cons, ih, or_eq_zero_iff_both]
    constructor
    · rintro ⟨⟨h1, h2⟩, h3⟩
      refine ⟨h1, fun i hi => ?_⟩
      rcases List.mem_cons.mp hi with h4 | h5
      · subst h4
        exact h2
      · exact h3 i h5
    · rintro ⟨h1, h2⟩
      exact ⟨⟨h1, h2 x (List.mem_cons_self _ _)⟩,
        fun i hi => h2 i (List.mem_cons_of_mem _ hi)⟩

theorem xor_fold_zero_iff (a b : List Nat) (ha : a.length = 8) (hb : b.length = 8) :
    (List.range 8).foldl (fun acc i => acc ||| (a.getD i 0 ^^^ b.getD i 0)) 0 = 0
      ↔ a = b := by
  rw [foldl_or_eq_zero_iff (fun i => a.getD i 0 ^^^ b.getD i 0)]
  constructor
  · rintro ⟨_, h2⟩
    apply List.ext_getElem (by rw [ha, hb])
    intro i h1 h2b
    have hi8 : i < 8 := by rwa [ha] at h1
    have h3 := h2 i (List.mem_range.mpr hi8)
    rw [Nat.xor_eq_zero] at h3
    rwa [List.getD_eq_getElem a 0 h1, List.getD_eq_getElem b 0 h2b] at h3
  · rintro rfl
    exact ⟨rfl, fun i _ => Nat.xor_self _⟩

/-- C7: two engines whose key, nonce, block counter and word index agree with
word index 8 compare equal regardless of buffer contents; two engines with
different keys never compare equal; with word index below 8, equality
additionally requires identical buffer words. -/
theorem claim_cs_equality (a b : CsState) (hka : a.key.length = 8)
    (hkb : b.key.length = 8) (hba : a.buffer.length = 8) (hbb : b.buffer.length = 8) :
    (a.key = b.key → a.nonce = b.nonce → a.ctr = b.ctr → a.idx = b.idx → a.idx = 8 →
      cs_beq a b = true)
    ∧ (a.key ≠ b.key → cs_beq a b = false)
    ∧ (a.key = b.key → a.nonce = b.nonce → a.ctr = b.ctr → a.idx = b.idx → a.idx < 8 →
      (cs_beq a b = true ↔ a.buffer = b.buffer)) := by
  refine ⟨?_, ?_, ?_⟩
  · intro hk hn hc hi h8
    have hkey0 : (List.range 8).foldl
        (fun acc i => acc ||| (a.key.getD i 0 ^^^ b.key.getD i 0)) 0 = 0 :=
      (xor_fold_zero_iff _ _ hka hkb).mpr hk
    simp only [cs_beq]
    rw [if_neg (show ¬ (List.range 8).foldl
          (fun acc i => acc ||| (a.key.getD i 0 ^^^ b.key.getD i 0)) 0 ≠ 0 by
        rw [hkey0]
        exact fun h => h rfl),
      if_neg (show ¬ ¬ (a.nonce = b.nonce ∧ a.ctr = b.ctr ∧ a.idx = b.idx) from
        fun h => h ⟨hn, hc, hi⟩),
      if_neg (show ¬ a.idx < 8 by omega)]
  · intro hk
    have hkey1 : (List.range 8).foldl
        (fun acc i => acc ||| (a.key.getD i 0 ^^^ b.key.getD i 0)) 0 ≠ 0 := by
      intro h0
      exact hk ((xor_fold_zero_iff _ _ hka hkb).mp h0)
    simp only [cs_beq]
    rw [if_pos hkey1]
  · intro hk hn hc hi h8
    have hkey0 : (List.range 8).foldl
        (fun acc i => acc ||| (a.key.getD i 0 ^^^ b.key.getD i 0)) 0 = 0 :=
      (xor_fold_zero_iff _ _ hka hkb).mpr hk
    simp only [cs_beq]
    rw [if_neg (show ¬ (List.range 8).foldl
          (fun acc i => acc ||| (a.key.getD i 0 ^^^ b.key.getD i 0)) 0 ≠ 0 by
        rw [hkey0]
        exact fun h => h rfl),
      if_neg (show ¬ ¬ (a.nonce = b.nonce ∧ a.ctr = b.ctr ∧ a.idx = b.idx) from
        fun h => h ⟨hn, hc, hi⟩),
      if_pos h8]
    rw [decide_eq_true_eq]
    exact xor_fold_zero_iff _ _ hba hbb

theorem claim_cs_equality_witness :
    ([1, 2, 3, 4, 5, 6, 7, 8] : List Nat).length = 8
    ∧ (List.replicate 8 (0 : Nat)).length = 8
    ∧ (List.replicate 8 (9 : Nat)).length = 8
    ∧ cs_beq
        { key := [1, 2, 3, 4, 5, 6, 7, 8], nonce := [1, 2], ctr := 7,
          buffer := List.replicate 8 0, idx := 8 }
        { key := [1, 2, 3, 4, 5, 6, 7, 8], nonce := [1, 2], ctr := 7,
          buffer := List.replicate 8 9, idx := 8 } = true :=
  ⟨rfl, by decide, by decide,
   (claim_cs_equality
     { key := [1, 2, 3, 4, 5, 6, 7, 8], nonce := [1, 2], ctr := 7,
       buffer := List.replicate 8 0, idx := 8 }
     { key := [1, 2, 3, 4, 5, 6, 7, 8], nonce := [1, 2], ctr := 7,
       buffer := List.replicate 8 9, idx := 8 }
     rfl rfl (by decide) (by decide)).1 rfl rfl rfl rfl rfl⟩

-- ─────────────────────────────────────────────────────────────────────────
-- Claim C6: csprng serialization round trip
-- ─────────────────────────────────────────────────────────────────────────

/-- C6: serializing a csprng whose partially consumed buffer is the block the
engine actually generated (word index strictly between 0 and 8, counter at
least 1) and deserializing the record into any engine restores exactly the
original state, hence the same future output sequence; deserializing a
record with a mid-block word index but block counter 0 fails explicitly. -/
theorem claim_serialize_roundtrip :
    (∀ (perm : PermFn) (s t : CsState), 0 < s.idx → s.idx < 8 → 1 ≤ s.ctr → s.ctr < U →
      s.buffer = perm s.key s.nonce (s.ctr - 1) →
      cs_deserialize perm (cs_serialize s) t = Except.ok s)
    ∧ (∀ (perm : PermFn) (s t : CsState), 0 < s.idx → s.idx < 8 → s.ctr = 0 →
      cs_deserialize perm (cs_serialize s) t
        = Except.error DesErr.zeroCounterMidBlock) := by
  constructor
  · intro perm s t hi0 hi8 hc1 hcU hbuf
    obtain ⟨sk, sn, sc, sb, si⟩ := s
    simp only at hi0 hi8 hc1 hcU hbuf
    simp only [cs_serialize, cs_deserialize]
    rw [if_neg (show ¬ magicBytes ≠ magicBytes from fun h => h rfl),
        if_neg (show ¬ (1 : Nat) ≠ 1 from fun h => h rfl),
        if_neg (show ¬ 8 < si by omega),
        if_pos (show si < 8 from hi8),
        if_neg (show ¬ sc = 0 by omega),
        cs_refill_ok perm _ (show sc - 1 + 1 < U by omega)]
    show Except.ok ({ key := sk, nonce := sn, ctr := sc, buffer := perm sk sn (sc - 1), idx := si } : CsState) = _
    rw [← hbuf]
  · intro perm s t hi0 hi8 hc0
    obtain ⟨sk, sn, sc, sb, si⟩ := s
    simp only at hi0 hi8 hc0
    simp only [cs_serialize, cs_deserialize]
    rw [if_neg (show ¬ magicBytes ≠ magicBytes from fun h => h rfl),
        if_neg (show ¬ (1 : Nat) ≠ 1 from fun h => h rfl),
        if_neg (show ¬ 8 < si by omega),
        if_pos (show si < 8 from hi8),
        if_pos (show sc = 0 from hc0)]

theorem cs_refill_inv (perm : PermFn) (s : CsState) (hctr : s.ctr < U) :
    CsInv perm (cs_refill perm s).1 := by
  intro _ hc1
  by_cases hwrap : s.ctr + 1 < U
  · rw [cs_refill_ok perm s hwrap]
    show perm s.key s.nonce s.ctr = perm s.key s.nonce (s.ctr + 1 - 1)
    rw [Nat.add_sub_cancel]
  · have hc : s.ctr = U - 1 := by omega
    rw [cs_refill_wrap perm s hc] at hc1
    have : (1 : Nat) ≤ 0 := hc1
    omega

theorem cs_next_inv (perm : PermFn) (s : CsState) (hs : CsValid s)
    (hinv : CsInv perm s) : CsInv perm (cs_next perm s).2 := by
  by_cases h : s.idx < 8
  · rw [cs_next_lo perm s h]
    intro hidx hc1
    exact hinv h hc1
  · rw [cs_next]
    rw [if_pos (by omega)]
    have hctr : s.ctr < U := hs.2.2
    by_cases hwrap : s.ctr + 1 < U
    · rw [cs_refill_ok perm s hwrap]
      intro _ _
      show perm s.key s.nonce s.ctr = perm s.key s.nonce (s.ctr + 1 - 1)
      rw [Nat.add_sub_cancel]
    · have hc : s.ctr = U - 1 := by omega
      rw [cs_refill_wrap perm s hc]
      intro _ hc1
      have : (1 : Nat) ≤ 0 := hc1
      omega

theorem cs_discard_inv (perm : PermFn) (s : CsState) (n : Nat) (hs : CsValid s)
    (hinv : CsInv perm s) (hroom : s.ctr + (s.idx + n) / 8 < U) :
    CsInv perm (cs_discard perm s n).1 := by
  have hle : s.idx ≤ 8 := hs.2.1
  by_cases h0 : n = 0
  · subst h0
    rw [cs_discard_zero]
    exact hinv
  by_cases hlt : n < 8 - s.idx
  · rw [cs_discard_lo perm s n h0 hlt]
    intro hidx hc1
    exact hinv (by omega) hc1
  · have hfull1 : (n - (8 - s.idx)) / 8 + 1 = (s.idx + n) / 8 := by
      have hsplit : s.idx + n = (n - (8 - s.idx)) + 8 := by omega
      rw [hsplit, Nat.add_div_right _ (by norm_num)]
    have hroom2 : s.ctr + (n - (8 - s.idx)) / 8 + 1 < U := by
      have h2 : s.ctr + ((n - (8 - s.idx)) / 8 + 1) < U := by
        rw [hfull1]
        exact hroom
      omega
    by_cases hrem : (n - (8 - s.idx)) % 8 ≠ 0
    · rw [cs_discard_hi_rem perm s n h0 hlt hroom2 hrem]
      intro _ _
      show perm s.key s.nonce (s.ctr + (n - (8 - s.idx)) / 8)
          = perm s.key s.nonce (s.ctr + (n - (8 - s.idx)) / 8 + 1 - 1)
      rw [Nat.add_sub_cancel]
    · have hrem0 : (n - (8 - s.idx)) % 8 = 0 := by omega
      rw [cs_discard_hi_norem perm s n h0 hlt hroom2 hrem0]
      intro hidx _
      have h8 : (8 : Nat) < 8 := hidx
      omega

theorem claim_serialize_roundtrip_witness :
    (0 : Nat) < 3 ∧ (3 : Nat) < 8 ∧ (1 : Nat) ≤ 5 ∧ (5 : Nat) < U
    ∧ ({ key := [1, 2], nonce := [3], ctr := 5, buffer := List.replicate 8 4, idx := 3 } : CsState).buffer
      = (fun _ _ _ => List.replicate 8 (4 : Nat)) [1, 2] [3] (5 - 1)
    ∧ cs_deserialize (fun _ _ _ => List.replicate 8 (4 : Nat))
        (cs_serialize { key := [1, 2], nonce := [3], ctr := 5, buffer := List.replicate 8 4, idx := 3 })
        { key := [], nonce := [], ctr := 0, buffer := [], idx := 8 }
      = Except.ok { key := [1, 2], nonce := [3], ctr := 5, buffer := List.replicate 8 4, idx := 3 } :=
  ⟨by decide, by decide, by decide, by decide, rfl,
   claim_serialize_roundtrip.1 (fun _ _ _ => List.replicate 8 (4 : Nat))
     { key := [1, 2], nonce := [3], ctr := 5, buffer := List.replicate 8 4, idx := 3 }
     { key := [], nonce := [], ctr := 0, buffer := [], idx := 8 }
     (by decide) (by decide) (by decide) (by decide) rfl⟩

-- ─────────────────────────────────────────────────────────────────────────
-- Lemire bounded sampling: range membership
-- ─────────────────────────────────────────────────────────────────────────

theorem mulHi_lt (x r : Nat) (hx : x < U) (hr : 0 < r) : mulHi x r < r := by
  rw [mulHi, Nat.div_lt_iff_lt_mul U_pos]
  calc x * r < U * r := (Nat.mul_lt_mul_right hr).mpr hx
    _ = r * U := Nat.mul_comm _ _

theorem lemireLoop_bound (range t : Nat) (hr : 0 < range) :
    ∀ (ds : List Nat), (∀ x ∈ ds, x < U) → ∀ h rest,
      lemireLoop range t ds = some (h, rest) → h < range := by
  intro ds
  induction ds with
  | nil =>
    intro _ h rest hres
    simp [lemireLoop] at hres
  | cons x rest2 ih =>
    intro hds h rest hres
    rw [lemireLoop] at hres
    by_cases hcase : mulLo x range < t
    · rw [if_pos hcase] at hres
      exact ih (fun y hy => hds y (List.mem_cons_of_mem _ hy)) h rest hres
    · rw [if_neg hcase] at hres
      have h1 : mulHi x range = h := by
        have := Option.some.inj hres
        exact (Prod.mk.injEq _ _ _ _).mp this |>.1
      rw [← h1]
      exact mulHi_lt x range (hds x (List.mem_cons_self _ _)) hr

theorem unbiased_mem (lo hi : Nat) (hle : lo ≤ hi) (hhi : hi < U) (ds : List Nat)
    (hds : ∀ x ∈ ds, x < U) (v : Nat) (rest : List Nat)
    (hres : unbiased lo hi ds = some (v, rest)) : lo ≤ v ∧ v ≤ hi := by
  simp only [unbiased] at hres
  rw [Nat.min_eq_left hle, Nat.max_eq_right hle] at hres
  by_cases heq : lo = hi
  · rw [if_pos heq] at hres
    have h1 := Option.some.inj hres
    have h2 : lo = v := ((Prod.mk.injEq _ _ _ _).mp h1).1
    omega
  · rw [if_neg heq] at hres
    have hlt : lo < hi := by omega
    by_cases hr0 : (hi - lo + 1) % U = 0
    · -- full 64-bit range: lo = 0 and hi = U - 1, a raw draw is passed through
      rw [if_pos hr0] at hres
      have hle2 : hi - lo + 1 ≤ U := by omega
      have hpos : 0 < hi - lo + 1 := by omega
      have hfull : hi - lo + 1 = U := by
        rcases Nat.lt_or_ge (hi - lo + 1) U with h | h
        · rw [Nat.mod_eq_of_lt h] at hr0
          omega
        · omega
      cases ds with
      | nil => simp at hres
      | cons x rest2 =>
        dsimp only at hres
        have h1 := Option.some.inj hres
        have h2 : x = v := ((Prod.mk.injEq _ _ _ _).mp h1).1
        have hx : x < U := hds x (List.mem_cons_self _ _)
        omega
    · rw [if_neg hr0] at hres
      have hle2 : hi - lo + 1 ≤ U := by omega
      have hrange : (hi - lo + 1) % U = hi - lo + 1 := by
        rcases Nat.lt_or_ge (hi - lo + 1) U with h | h
        · exact Nat.mod_eq_of_lt h
        · have : hi - lo + 1 = U := by omega
          rw [this, Nat.mod_self] at hr0
          omega
      rw [hrange] at hres
      have hrpos : 0 < hi - lo + 1 := by omega
      cases ds with
      | nil => simp at hres
      | cons x rest2 =>
        dsimp only at hres
        have hx : x < U := hds x (List.mem_cons_self _ _)
        have hhead : mulHi x (hi - lo + 1) < hi - lo + 1 := mulHi_lt x _ hx hrpos
        by_cases hc1 : mulLo x (hi - lo + 1) < hi - lo + 1
        · rw [if_pos hc1] at hres
          by_cases hc2 : mulLo x (hi - lo + 1) < (U - (hi - lo + 1)) % (hi - lo + 1)
          · rw [if_pos hc2] at hres
            cases hloop : lemireLoop (hi - lo + 1) ((U - (hi - lo + 1)) % (hi - lo + 1)) rest2 with
            | none =>
              rw [hloop] at hres
              simp at hres
            | some pr =>
              obtain ⟨h2, rest3⟩ := pr
              rw [hloop] at hres
              have hbnd : h2 < hi - lo + 1 :=
                lemireLoop_bound (hi - lo + 1) _ hrpos rest2
                  (fun y hy => hds y (List.mem_cons_of_mem _ hy)) h2 rest3 hloop
              have h1 := Option.some.inj hres
              have h2v : lo + h2 = v := ((Prod.mk.injEq _ _ _ _).mp h1).1
              omega
          · rw [if_neg hc2] at hres
            have h1 := Option.some.inj hres
            have h2v : lo + mulHi x (hi - lo + 1) = v := ((Prod.mk.injEq _ _ _ _).mp h1).1
            omega
        · rw [if_neg hc1] at hres
          have h1 := Option.some.inj hres
          have h2v : lo + mulHi x (hi - lo + 1) = v := ((Prod.mk.injEq _ _ _ _).mp h1).1
          omega

-- ─────────────────────────────────────────────────────────────────────────
-- Lemire bounded sampling: exact uniformity of accepted draws
-- ─────────────────────────────────────────────────────────────────────────

theorem lemHits_eq (lo R v : Nat) (hR2 : 2 ≤ R) (hRU : R < U) (hv : lo ≤ v)
    (hvR : v < lo + R) : lemHits lo R v = U / R := by
  have hRpos : 0 < R := by omega
  have ht : (U - R) % R = U % R := (Nat.mod_eq_sub_mod (le_of_lt hRU)).symm
  have hURk := Nat.div_add_mod U R
  have htR : U % R < R := Nat.mod_lt _ hRpos
  have hst := Nat.div_add_mod ((v - lo) * U + U % R + R - 1) R
  have hmst := Nat.mod_lt ((v - lo) * U + U % R + R - 1) hRpos
  rw [lemHits]
  have hset : (Finset.range U).filter
      (fun x => lemAccept R x = true ∧ lo + mulHi x R = v)
      = Finset.Ico (((v - lo) * U + U % R + R - 1) / R)
          (((v - lo) * U + U % R + R - 1) / R + U / R) := by
    apply Finset.ext
    intro x
    rw [Finset.mem_filter, Finset.mem_Ico, Finset.mem_range]
    have hxR := Nat.div_add_mod (x * R) U
    constructor
    · rintro ⟨hxU, hacc, hval⟩
      rw [lemAccept, decide_eq_true_eq, ht, mulLo] at hacc
      rw [mulHi] at hval
      have hw : x * R / U = v - lo := by omega
      rw [hw] at hxR
      have hcomm : U * (v - lo) = (v - lo) * U := Nat.mul_comm _ _
      have h1 : (v - lo) * U + U % R ≤ x * R := by omega
      have h2 : R * (((v - lo) * U + U % R + R - 1) / R) < R * (x + 1) := by
        have e5 : R * (x + 1) = x * R + R := by ring
        omega
      have h3 : ((v - lo) * U + U % R + R - 1) / R ≤ x :=
        Nat.lt_succ_iff.mp (Nat.lt_of_mul_lt_mul_left h2)
      have hmodU : x * R % U < U := Nat.mod_lt _ U_pos
      have h4 : x * R < (v - lo) * U + U % R + R * (U / R) := by omega
      have h5 : R * x < R * (((v - lo) * U + U % R + R - 1) / R + U / R) := by
        have e6 : R * (((v - lo) * U + U % R + R - 1) / R + U / R)
            = R * (((v - lo) * U + U % R + R - 1) / R) + R * (U / R) := by ring
        have e7 : R * x = x * R := Nat.mul_comm _ _
        omega
      exact ⟨h3, Nat.lt_of_mul_lt_mul_left h5⟩
    · rintro ⟨hx1, hx2⟩
      have hA : (v - lo) * U + U % R ≤ x * R := by
        have h1 := Nat.mul_le_mul_left R hx1
        have e7 : R * x = x * R := Nat.mul_comm _ _
        omega
      have hB : x * R < (v - lo) * U + U % R + R * (U / R) := by
        have h1 := Nat.mul_le_mul_left R
          (show x + 1 ≤ ((v - lo) * U + U % R + R - 1) / R + U / R from hx2)
        have e5 : R * (x + 1) = R * x + R := by ring
        have e6 : R * (((v - lo) * U + U % R + R - 1) / R + U / R)
            = R * (((v - lo) * U + U % R + R - 1) / R) + R * (U / R) := by ring
        have e7 : R * x = x * R := Nat.mul_comm _ _
        omega
      have hdiv : x * R / U = v - lo := by
        apply Nat.div_eq_of_lt_le
        · calc (v - lo) * U ≤ (v - lo) * U + U % R := Nat.le_add_right _ _
            _ ≤ x * R := hA
        · have e8 : (v - lo + 1) * U = (v - lo) * U + U := by ring
          omega
      have hxU : x < U := by
        have h9 : x * R < (v - lo + 1) * U := by
          have e8 : (v - lo + 1) * U = (v - lo) * U + U := by ring
          omega
        have h10 : (v - lo + 1) * U ≤ R * U := Nat.mul_le_mul_right U (by omega)
        have h11 : x * R < U * R := by
          have e9 : R * U = U * R := Nat.mul_comm _ _
          omega
        exact (Nat.mul_lt_mul_right hRpos).mp h11
      have hmod : U % R ≤ x * R % U := by
        rw [hdiv] at hxR
        have hcomm : U * (v - lo) = (v - lo) * U := Nat.mul_comm _ _
        omega
      refine ⟨hxU, ?_, ?_⟩
      · rw [lemAccept, decide_eq_true_eq, ht, mulLo]
        exact hmod
      · rw [mulHi, hdiv]
        omega
  rw [hset, Nat.card_Ico]
  exact Nat.add_sub_cancel_left _ _

-- ─────────────────────────────────────────────────────────────────────────
-- Claims C4 and C10: the shared Lemire bounded sampler
-- ─────────────────────────────────────────────────────────────────────────

/-- C4: for lo ≤ hi, `unbiased(lo, hi)` (the procedure shared verbatim by
csprng and random_device) only produces values in [lo, hi]; for every range
of at least 2 (including ranges not dividing 2^64), each value of [lo, hi]
is produced by exactly the same number `2^64 / range` of accepted 64-bit
draws — exact uniformity when raw draws are uniform; and a range that wraps
to 0 passes the raw 64-bit draw straight through. -/
theorem claim_unbiased_uniform (lo hi : Nat) (hle : lo ≤ hi) (hhi : hi < U) :
    (∀ (ds : List Nat) (v : Nat) (rest : List Nat), (∀ x ∈ ds, x < U) →
      unbiased lo hi ds = some (v, rest) → lo ≤ v ∧ v ≤ hi)
    ∧ (2 ≤ (hi - lo + 1) % U → ∀ v, lo ≤ v → v ≤ hi →
      lemHits lo ((hi - lo + 1) % U) v = U / ((hi - lo + 1) % U))
    ∧ ((hi - lo + 1) % U = 0 → ∀ x rest2,
      unbiased lo hi (x :: rest2) = some (x, rest2)) := by
  refine ⟨fun ds v rest hds hres => unbiased_mem lo hi hle hhi ds hds v rest hres, ?_, ?_⟩
  · intro hR2 v hv1 hv2
    have hRU : (hi - lo + 1) % U < U := Nat.mod_lt _ U_pos
    have hrange : (hi - lo + 1) % U = hi - lo + 1 := by
      rcases Nat.lt_or_ge (hi - lo + 1) U with h | h
      · exact Nat.mod_eq_of_lt h
      · have h2 : hi - lo + 1 = U := by omega
        rw [h2, Nat.mod_self] at hR2
        omega
    apply lemHits_eq lo _ v hR2 hRU hv1
    rw [hrange]
    omega
  · intro hr0 x rest2
    have hne : lo ≠ hi := by
      intro h
      rw [h] at hr0
      have h3 : hi - hi + 1 = 1 := by omega
      rw [h3, Nat.mod_eq_of_lt one_lt_U] at hr0
      omega
    simp only [unbiased]
    rw [Nat.min_eq_left hle, Nat.max_eq_right hle, if_neg hne, if_pos hr0]

theorem claim_unbiased_uniform_witness :
    (5 : Nat) ≤ 10 ∧ (10 : Nat) < U
    ∧ (∀ x ∈ ([1] : List Nat), x < U)
    ∧ unbiased 5 10 [1] = some (5, [])
    ∧ ((5 : Nat) ≤ 5 ∧ (5 : Nat) ≤ 10)
    ∧ (2 : Nat) ≤ (10 - 5 + 1) % U
    ∧ lemHits 5 ((10 - 5 + 1) % U) 7 = U / ((10 - 5 + 1) % U) :=
  ⟨by decide, by decide, by decide, by decide,
   (claim_unbiased_uniform 5 10 (by decide) (by decide)).1 [1] 5 [] (by decide) (by decide),
   by decide,
   (claim_unbiased_uniform 5 10 (by decide) (by decide)).2.1 (by decide) 7
     (by decide) (by decide)⟩

/-- C10: `unbiased` accepts every pair of 64-bit arguments: when the bounds
arrive reversed they are swapped (the call behaves exactly as with the
bounds in order), a singleton interval returns its bound while consuming no
draw, and every produced value lies in [min, max]. -/
theorem claim_unbiased_args (lower upper : Nat) (ds : List Nat) :
    unbiased lower upper ds = unbiased upper lower ds
    ∧ (lower = upper → unbiased lower upper ds = some (lower, ds))
    ∧ (∀ v rest, lower < U → upper < U → (∀ x ∈ ds, x < U) →
        unbiased lower upper ds = some (v, rest) →
        min lower upper ≤ v ∧ v ≤ max lower upper) := by
  refine ⟨?_, ?_, ?_⟩
  · simp only [unbiased]
    rw [Nat.min_comm, Nat.max_comm]
  · intro h
    subst h
    simp only [unbiased]
    rw [Nat.min_self, Nat.max_self, if_pos rfl]
  · intro v rest h1 h2 hds hres
    rcases Nat.le_total lower upper with hcase | hcase
    · rw [Nat.min_eq_left hcase, Nat.max_eq_right hcase]
      exact unbiased_mem lower upper hcase h2 ds hds v rest hres
    · rw [Nat.min_eq_right hcase, Nat.max_eq_left hcase]
      apply unbiased_mem upper lower hcase h1 ds hds v rest
      rw [← hres]
      simp only [unbiased]
      rw [Nat.min_comm, Nat.max_comm]

theorem claim_unbiased_args_witness :
    unbiased 10 3 [1] = unbiased 3 10 [1]
    ∧ unbiased 4 4 ([] : List Nat) = some (4, [])
    ∧ ((10 : Nat) < U ∧ (3 : Nat) < U ∧ (∀ x ∈ ([1] : List Nat), x < U)
        ∧ unbiased 10 3 [1] = some (3, []))
    ∧ (min 10 3 ≤ 3 ∧ (3 : Nat) ≤ max 10 3) :=
  ⟨(claim_unbiased_args 10 3 [1]).1,
   (claim_unbiased_args 4 4 []).2.1 rfl,
   ⟨by decide, by decide, by decide, by decide⟩,
   (claim_unbiased_args 10 3 [1]).2.2 3 [] (by decide) (by decide) (by decide) (by decide)⟩

end RNG
